import Mathlib

/-!
Shallow embedding of the freya `native-core` incremental-state engine
(`src/crates/native-core/src/real_dom.rs`) together with the parts of the
repository it uses that are not shipped in `src/` (the tree, node and mask
modules), which are modelled from the specification.  All definitions are
executable; theorems about the engine's dirty tracking, dependency
resolution, scheduling, cloning, removal and listener index follow the
definitions.
-/

/- Node identifiers (Rust `Nat`) are opaque ids handed out by the world's
entity allocator and are modelled as natural numbers allocated by an
increasing counter; Rust `std::any::Nat` values are likewise modelled as
natural numbers.  Both appear as plain `Nat` below. -/

/-- Event names (`EventName`), modelled as strings. -/
abbrev EventName := String

/-- Attribute names (`AttributeName`), modelled as strings. -/
abbrev AttributeName := String

/-- Modelled from the spec: attribute values (`OwnedAttributeValue`) live in
`node.rs`, which is not under `src/`; the spec treats them as opaque map
values, so they are modelled as strings. -/
abbrev OwnedAttributeValue := String

/-- Modelled from the spec: the attribute part of a node mask (`AttributeMask`
from `node_ref.rs`, not under `src/`): either every attribute name or a finite
set of attribute names. -/
inductive AttributeMask where
  | all : AttributeMask
  | some : Finset AttributeName → AttributeMask
deriving DecidableEq

/-- Modelled from the spec: overlap test of two attribute masks, reading each
mask as the set of attribute names it covers (`all` covers the infinitely many
attribute names). -/
def AttributeMask.overlaps : AttributeMask → AttributeMask → Prop
  | .all, .all => True
  | .all, .some s => s ≠ ∅
  | .some s, .all => s ≠ ∅
  | .some s, .some t => s ∩ t ≠ ∅

instance AttributeMask.decOverlaps :
    ∀ a b : AttributeMask, Decidable (a.overlaps b) := by
  intro a b
  cases a <;> cases b <;> simp only [AttributeMask.overlaps] <;> infer_instance

/-- Modelled from the spec: union of two attribute masks. -/
def AttributeMask.union : AttributeMask → AttributeMask → AttributeMask
  | .all, _ => .all
  | _, .all => .all
  | .some s, .some t => .some (s ∪ t)

/-- Modelled from the spec: a `NodeMask` is a bitset-like structure over
attribute names, text presence and listener presence (`node_ref.rs` is not
under `src/`). -/
structure NodeMask where
  attrs : AttributeMask
  text : Bool
  listeners : Bool
deriving DecidableEq

/-- Modelled from the spec: two node masks overlap when they share an
attribute name, or both cover text, or both cover listeners. -/
def NodeMask.overlaps (m n : NodeMask) : Prop :=
  m.attrs.overlaps n.attrs ∨ (m.text && n.text) = true ∨
    (m.listeners && n.listeners) = true

instance NodeMask.decOverlapsMask (m n : NodeMask) : Decidable (m.overlaps n) := by
  unfold NodeMask.overlaps; infer_instance

/-- Modelled from the spec: componentwise union of two node masks. -/
def NodeMask.union (m n : NodeMask) : NodeMask :=
  ⟨m.attrs.union n.attrs, m.text || n.text, m.listeners || n.listeners⟩

/-- `NodeMaskBuilder::ALL.build()`: the full mask. -/
def NodeMaskBuilder.ALL : NodeMask := ⟨.all, true, true⟩

/-- `NodeMaskBuilder::new().with_attrs(AttributeMaskBuilder::Some(attrs)).build()`. -/
def NodeMaskBuilder.withAttrs (s : Finset AttributeName) : NodeMask :=
  ⟨.some s, false, false⟩

/-- `NodeMaskBuilder::new().with_text().build()`. -/
def NodeMaskBuilder.withText : NodeMask := ⟨.some ∅, true, false⟩

/-- `NodeMaskBuilder::new().with_listeners().build()`. -/
def NodeMaskBuilder.withListeners : NodeMask := ⟨.some ∅, false, true⟩

/-- Traversal direction of a pass (`PassDirection` from `passes.rs`, with the
three variants the spec names: `ParentToChild`, `ChildToParent`, and a neutral
one). -/
inductive PassDirection where
  | ParentToChild : PassDirection
  | ChildToParent : PassDirection
  | AnyOrder : PassDirection
deriving DecidableEq

/-- A reverse-dependency edge (`Dependant` from `passes.rs`): the type id of
the dependant pass and whether propagation to it enters shadow subtrees. -/
structure Dependant where
  type_id : Nat
  enter_shadow_dom : Bool
deriving DecidableEq

/-- The resolved dependants of one pass, as used by `real_dom.rs`: passes to
invalidate on the parent, on the children, and on the same node. -/
structure PassDependants where
  parent : List Dependant
  child : List Dependant
  node : List Nat
deriving DecidableEq

/-- Modelled from the spec: a pass descriptor (`TypeErasedState` from
`passes.rs`, not under `src/`), carrying exactly the fields `real_dom.rs`
reads: its type id, its read mask, its declared dependency sets on *other*
pass types (parent / child / same node), its resolved dependants, its
traversal direction and its shadow-dom flag. -/
structure TypeErasedState where
  this_type_id : Nat
  mask : NodeMask
  parent_dependancies_ids : Finset Nat
  child_dependancies_ids : Finset Nat
  node_dependancies_ids : Finset Nat
  dependants : PassDependants
  pass_direction : PassDirection
  enter_shadow_dom : Bool
deriving DecidableEq

/-- `NodesDirty`: the dirty state of the `RealDom` (`real_dom.rs` lines
77-82). Hash maps are modelled as functions into `Option`, hash sets as
finite sets. -/
structure NodesDirty where
  passes_updated : Nat → Option (Finset Nat)
  nodes_updated : Nat → Option NodeMask
  nodes_created : Finset Nat
  passes : List TypeErasedState

/-- `NodesDirty::mark_dirty` (`real_dom.rs` lines 86-98): extend the node's
dirty pass set (created empty if absent) with the type id of every registered
pass whose mask overlaps the given mask, and union the mask into the node's
accumulated mask (inserted if absent). -/
def NodesDirty.mark_dirty (d : NodesDirty) (node_id : Nat) (mask : NodeMask) :
    NodesDirty :=
  { d with
    passes_updated := Function.update d.passes_updated node_id
      (Option.some (((d.passes_updated node_id).getD ∅) ∪
        (d.passes.filterMap fun x =>
          if x.mask.overlaps mask then Option.some x.this_type_id
          else Option.none).toFinset))
    nodes_updated := Function.update d.nodes_updated node_id
      (Option.some (match d.nodes_updated node_id with
        | Option.some node => node.union mask
        | Option.none => mask)) }

/-- `NodesDirty::mark_parent_added_or_removed` (`real_dom.rs` lines 101-109):
for every registered pass, insert every id in its
`parent_dependancies_ids` into the node's dirty pass set. -/
def NodesDirty.mark_parent_added_or_removed (d : NodesDirty) (node_id : Nat) :
    NodesDirty :=
  { d with
    passes_updated := Function.update d.passes_updated node_id
      (Option.some (d.passes.foldl
        (fun hm pass => hm ∪ pass.parent_dependancies_ids)
        ((d.passes_updated node_id).getD ∅))) }

/-- `NodesDirty::mark_child_changed` (`real_dom.rs` lines 112-120): for every
registered pass, insert every id in its `child_dependancies_ids` into the
node's dirty pass set. -/
def NodesDirty.mark_child_changed (d : NodesDirty) (node_id : Nat) :
    NodesDirty :=
  { d with
    passes_updated := Function.update d.passes_updated node_id
      (Option.some (d.passes.foldl
        (fun hm pass => hm ∪ pass.child_dependancies_ids)
        ((d.passes_updated node_id).getD ∅))) }

/-- Modelled from the spec: one tree entry of the ownership-tracking tree
(`tree.rs` is not under `src/`): a parent pointer and an ordered children
list.  Heights are derived from parent chains (the spec requires the height
to stay consistent with parent chains at all times). -/
structure TreeNode where
  parent : Option Nat
  children : List Nat
deriving DecidableEq

/-- Modelled from the spec: the tree over opaque node ids. -/
structure DomTree where
  nodes : Nat → Option TreeNode

/-- Modelled from the spec: `contains(id)`. -/
def DomTree.contains (t : DomTree) (id : Nat) : Bool :=
  (t.nodes id).isSome

/-- Modelled from the spec: `create(id)` inserts a fresh parentless,
childless entry. -/
def DomTree.create_node (t : DomTree) (id : Nat) : DomTree :=
  ⟨Function.update t.nodes id (Option.some ⟨Option.none, []⟩)⟩

/-- Modelled from the spec: detach a node from its current parent (used for
reparenting and removal): drop it from the parent's children list and clear
its parent pointer. -/
def DomTree.detach (t : DomTree) (id : Nat) : DomTree :=
  match t.nodes id with
  | Option.none => t
  | Option.some nd =>
    match nd.parent with
    | Option.none => t
    | Option.some p =>
      let t1 : DomTree := ⟨Function.update t.nodes p
        ((t.nodes p).map fun pn =>
          { pn with children := pn.children.filter (fun c => c ≠ id) })⟩
      ⟨Function.update t1.nodes id (Option.some { nd with parent := Option.none })⟩

/-- Modelled from the spec: `add_child(parent, child)` reparents `child`
under `parent`, appending it to the end of the parent's children list. -/
def DomTree.add_child (t : DomTree) (parent child : Nat) : DomTree :=
  let t0 := t.detach child
  let t1 : DomTree := ⟨Function.update t0.nodes parent
    ((t0.nodes parent).map fun pn => { pn with children := pn.children ++ [child] })⟩
  ⟨Function.update t1.nodes child
    ((t1.nodes child).map fun cn => { cn with parent := Option.some parent })⟩

/-- Insert `new` directly before `old` in a children list (identity past the
end when `old` is absent). -/
def insertBeforeList : List Nat → Nat → Nat → List Nat
  | [], _, new => [new]
  | x :: xs, old, new =>
    if x = old then new :: x :: xs else x :: insertBeforeList xs old new

/-- Insert `new` directly after `old` in a children list. -/
def insertAfterList : List Nat → Nat → Nat → List Nat
  | [], _, new => [new]
  | x :: xs, old, new =>
    if x = old then x :: new :: xs else x :: insertAfterList xs old new

/-- Modelled from the spec: `insert_before(old, new)` places `new` under
`old`'s parent, directly before `old` (no-op when `old` has no parent). -/
def DomTree.insert_before (t : DomTree) (old new : Nat) : DomTree :=
  match (t.nodes old).bind (·.parent) with
  | Option.none => t
  | Option.some p =>
    let t0 := t.detach new
    let t1 : DomTree := ⟨Function.update t0.nodes p
      ((t0.nodes p).map fun pn =>
        { pn with children := insertBeforeList pn.children old new })⟩
    ⟨Function.update t1.nodes new
      ((t1.nodes new).map fun cn => { cn with parent := Option.some p })⟩

/-- Modelled from the spec: `insert_after(old, new)` places `new` under
`old`'s parent, directly after `old`. -/
def DomTree.insert_after (t : DomTree) (old new : Nat) : DomTree :=
  match (t.nodes old).bind (·.parent) with
  | Option.none => t
  | Option.some p =>
    let t0 := t.detach new
    let t1 : DomTree := ⟨Function.update t0.nodes p
      ((t0.nodes p).map fun pn =>
        { pn with children := insertAfterList pn.children old new })⟩
    ⟨Function.update t1.nodes new
      ((t1.nodes new).map fun cn => { cn with parent := Option.some p })⟩

/-- Modelled from the spec: `parent_of(id)`. -/
def DomTree.parent_id (t : DomTree) (id : Nat) : Option Nat :=
  (t.nodes id).bind (·.parent)

/-- Modelled from the spec: `children_of(id)` (without shadow traversal). -/
def DomTree.children_ids (t : DomTree) (id : Nat) : List Nat :=
  ((t.nodes id).map (·.children)).getD []

/-- Modelled from the spec: `remove(id)` recursively removes a node and its
descendants, detaching the node from its parent first.  The recursion is
bounded by explicit fuel; `none` models running out of fuel, which cannot
happen on well-formed trees given enough fuel. -/
def DomTree.removeAux : Nat → DomTree → Nat → Option DomTree
  | 0, _, _ => Option.none
  | fuel + 1, t, id =>
    match t.nodes id with
    | Option.none => Option.some t
    | Option.some nd =>
      let t0 := t.detach id
      (nd.children.foldlM (fun acc c => DomTree.removeAux fuel acc c) t0).map
        (fun t1 => ⟨Function.update t1.nodes id Option.none⟩)

/-- Modelled from the spec: `height(id)` derived from the parent chain
(`height(root) = 0`, `height(child) = height(parent) + 1`), with fuel
bounding the chain length. -/
def DomTree.heightAux : Nat → DomTree → Nat → Option Nat
  | 0, _, _ => Option.none
  | fuel + 1, t, id =>
    match t.nodes id with
    | Option.none => Option.none
    | Option.some nd =>
      match nd.parent with
      | Option.none => Option.some 0
      | Option.some p => (DomTree.heightAux fuel t p).map (· + 1)

/-- `ElementNode` (`node.rs`, modelled from the spec): tag, attribute map
(modelled as an association list) and listener set. -/
structure ElementNode where
  tag : String
  attributes : List (AttributeName × OwnedAttributeValue)
  listeners : Finset EventName
deriving DecidableEq

/-- `NodeType` (`node.rs`, modelled from the spec): the payload of a node. -/
inductive NodeType where
  | Element : ElementNode → NodeType
  | Text : String → NodeType
  | Placeholder : NodeType
deriving DecidableEq

/-- Insert into an attribute association list, replacing in place and
returning the previous value, like `HashMap::insert`. -/
def attrInsert :
    List (AttributeName × OwnedAttributeValue) → AttributeName →
      OwnedAttributeValue →
      List (AttributeName × OwnedAttributeValue) × Option OwnedAttributeValue
  | [], k, v => ([(k, v)], Option.none)
  | (k', v') :: rest, k, v =>
    if k' = k then ((k, v) :: rest, Option.some v')
    else
      let (rest', old) := attrInsert rest k v
      ((k', v') :: rest', old)

/-- Remove from an attribute association list, returning the removed value,
like `HashMap::remove`. -/
def attrRemove :
    List (AttributeName × OwnedAttributeValue) → AttributeName →
      List (AttributeName × OwnedAttributeValue) × Option OwnedAttributeValue
  | [], _ => ([], Option.none)
  | (k', v') :: rest, k =>
    if k' = k then (rest, Option.some v')
    else
      let (rest', old) := attrRemove rest k
      ((k', v') :: rest', old)

/-- Look up an attribute in the association list, like `HashMap::get`. -/
def attrGet :
    List (AttributeName × OwnedAttributeValue) → AttributeName →
      Option OwnedAttributeValue
  | [], _ => Option.none
  | (k', v') :: rest, k => if k' = k then Option.some v' else attrGet rest k

/-- The `RealDom` (`real_dom.rs` lines 133-140).  The shipyard `World` is
modelled by the entity counter `next_id`, the `NodeType` component storage
`node_types` and the presence map `components` for the other (state)
component types, whose values the claims never inspect. -/
structure RealDom where
  next_id : Nat
  node_types : Nat → Option NodeType
  components : Nat → Nat → Bool
  tree : DomTree
  nodes_listening : EventName → Option (Finset Nat)
  dirty_nodes : NodesDirty
  root_id : Nat

/-- The `Dependant` record built from a pass (`real_dom.rs` lines 153-156). -/
def dependantOf (st : TypeErasedState) : Dependant :=
  ⟨st.this_type_id, st.enter_shadow_dom⟩

/-- One iteration of the inner resolution loop of `RealDom::new`
(`real_dom.rs` lines 150-178): record `current` as a child / parent / node
dependant of `st` according to `current`'s declared dependencies on
`st`'s type, skipping duplicate edges.  The source performs the three pushes
sequentially on one struct; they read and write disjoint fields, so they are
written here as independent field updates. -/
def resolveOther (current st : TypeErasedState) : TypeErasedState :=
  let cd := dependantOf current
  { st with dependants :=
    { child :=
        if st.this_type_id ∈ current.parent_dependancies_ids ∧
            cd ∉ st.dependants.child then
          st.dependants.child ++ [cd]
        else st.dependants.child
      parent :=
        if st.this_type_id ∈ current.child_dependancies_ids ∧
            cd ∉ st.dependants.parent then
          st.dependants.parent ++ [cd]
        else st.dependants.parent
      node :=
        if st.this_type_id ∈ current.node_dependancies_ids ∧
            current.this_type_id ∉ st.dependants.node then
          st.dependants.node ++ [current.this_type_id]
        else st.dependants.node } }

/-- The direction-sensitive self edge of `RealDom::new` (`real_dom.rs`
lines 179-197): a `ChildToParent` pass becomes a parent dependant of itself,
a `ParentToChild` pass a child dependant of itself. -/
def resolveSelf (st : TypeErasedState) : TypeErasedState :=
  let cd := dependantOf st
  let d0 := st.dependants
  let d1 :=
    match st.pass_direction with
    | .ChildToParent =>
      if cd ∉ d0.parent then { d0 with parent := d0.parent ++ [cd] } else d0
    | .ParentToChild =>
      if cd ∉ d0.child then { d0 with child := d0.child ++ [cd] } else d0
    | .AnyOrder => d0
  { st with dependants := d1 }

/-- Map a function receiving the position over a list, starting at index `i`. -/
def mapWithIdx (f : Nat → α → α) : Nat → List α → List α
  | _, [] => []
  | i, x :: xs => f i x :: mapWithIdx f (i + 1) xs

/-- One step of the resolution loop of `RealDom::new` with `current` the pass
at index `i`: every other pass is updated through `resolveOther`, the current
pass through `resolveSelf`. -/
def resolveStep (states : List TypeErasedState) (i : Nat) : List TypeErasedState :=
  match states.get? i with
  | Option.none => states
  | Option.some current =>
    mapWithIdx (fun j st => if j = i then resolveSelf st else resolveOther current st)
      0 states

/-- The dependants-resolution loop of `RealDom::new` (`real_dom.rs` lines
146-198): each pass in order plays the role of `current` once. -/
def resolve_dependants (states : List TypeErasedState) : List TypeErasedState :=
  (List.range states.length).foldl resolveStep states

/-- `TypeErasedState::combined_dependancy_type_ids` (modelled from the spec:
the combined dependency set joins the parent, child and same-node dependency
sets). -/
def TypeErasedState.combined_dependancy_type_ids (st : TypeErasedState) :
    Finset Nat :=
  st.parent_dependancies_ids ∪ st.child_dependancies_ids ∪ st.node_dependancies_ids

/-- `RealDom::create_node` (`real_dom.rs` lines 253-269): allocate a fresh
entity carrying the payload, create its tree entry, extend its dirty pass set
with every registered pass, mark it dirty with the full mask and record it as
created.  Returns the updated dom and the new id. -/
def RealDom.create_node (s : RealDom) (node : NodeType) : RealDom × Nat :=
  let id := s.next_id
  let s1 := { s with
    next_id := id + 1
    node_types := Function.update s.node_types id (Option.some node)
    tree := s.tree.create_node id }
  let d := s1.dirty_nodes
  let d : NodesDirty := { d with
    passes_updated := Function.update d.passes_updated id
      (Option.some (((d.passes_updated id).getD ∅) ∪
        (d.passes.map (fun x => x.this_type_id)).toFinset)) }
  let d := d.mark_dirty id NodeMaskBuilder.ALL
  let d := { d with nodes_created := insert id d.nodes_created }
  ({ s1 with dirty_nodes := d }, id)

/-- `RealDom::new` (`real_dom.rs` lines 144-235): resolve the dependants
graph, create the root element node and mark it dirty for every registered
pass with the full mask. -/
def RealDom.new (tracked_states : List TypeErasedState) : RealDom :=
  let tracked_states := resolve_dependants tracked_states
  let root_id : Nat := 0
  { next_id := 1
    node_types := Function.update (fun _ => Option.none) root_id
      (Option.some (NodeType.Element ⟨"Root", [], ∅⟩))
    components := fun _ _ => false
    tree := DomTree.create_node ⟨fun _ => Option.none⟩ root_id
    nodes_listening := fun _ => Option.none
    dirty_nodes :=
      { passes_updated := Function.update (fun _ => Option.none) root_id
          (Option.some (tracked_states.map (·.this_type_id)).toFinset)
        nodes_updated := Function.update (fun _ => Option.none) root_id
          (Option.some NodeMaskBuilder.ALL)
        nodes_created := {root_id}
        passes := tracked_states }
    root_id := root_id }

/-- `RealDom::is_node_listening` (`real_dom.rs` lines 271-276). -/
def RealDom.is_node_listening (s : RealDom) (node_id : Nat) (event : EventName) :
    Bool :=
  match s.nodes_listening event with
  | Option.some l => decide (node_id ∈ l)
  | Option.none => false

/-- `RealDom::get_listeners` (`real_dom.rs` lines 278-287), as the set of
listening node ids. -/
def RealDom.get_listeners (s : RealDom) (event : EventName) : Finset Nat :=
  (s.nodes_listening event).getD ∅

/-- `RealDom::contains` (`real_dom.rs` lines 295-297). -/
def RealDom.contains (s : RealDom) (id : Nat) : Bool :=
  s.tree.contains id

/-- `NodeMut::get_mut::<T>` (`real_dom.rs` lines 562-578): insert `T`'s type
id into the node's dirty pass set, then look the component up; the returned
flag models whether the lookup produced a value. -/
def NodeMut.get_mut (s : RealDom) (id : Nat) (t : Nat) : RealDom × Bool :=
  let d := s.dirty_nodes
  let d := { d with
    passes_updated := Function.update d.passes_updated id
      (Option.some (Insert.insert t ((d.passes_updated id).getD ∅))) }
  ({ s with dirty_nodes := d }, s.components t id)

/-- `NodeMut::insert` (`real_dom.rs` lines 584-593): mark the node's dirty
pass set with `T`'s type id and store the component. -/
def NodeMut.insert (s : RealDom) (id : Nat) (t : Nat) : RealDom :=
  let d := s.dirty_nodes
  let d := { d with
    passes_updated := Function.update d.passes_updated id
      (Option.some (Insert.insert t ((d.passes_updated id).getD ∅))) }
  { s with
    dirty_nodes := d
    components := fun t' n => if t' = t ∧ n = id then true else s.components t' n }

/-- `NodeMut::add_child` (`real_dom.rs` lines 597-601). -/
def NodeMut.add_child (s : RealDom) (id child : Nat) : RealDom :=
  let d := s.dirty_nodes.mark_child_changed id
  let d := d.mark_parent_added_or_removed child
  { s with dirty_nodes := d, tree := s.tree.add_child id child }

/-- `NodeMut::insert_after` (`real_dom.rs` lines 605-613). -/
def NodeMut.insert_after (s : RealDom) (id old : Nat) : RealDom :=
  match s.tree.parent_id old with
  | Option.some parent_id =>
    let d := s.dirty_nodes.mark_child_changed parent_id
    let d := d.mark_parent_added_or_removed id
    { s with dirty_nodes := d, tree := s.tree.insert_after old id }
  | Option.none => { s with tree := s.tree.insert_after old id }

/-- `NodeMut::insert_before` (`real_dom.rs` lines 617-625). -/
def NodeMut.insert_before (s : RealDom) (id old : Nat) : RealDom :=
  match s.tree.parent_id old with
  | Option.some parent_id =>
    let d := s.dirty_nodes.mark_child_changed parent_id
    let d := d.mark_parent_added_or_removed id
    { s with dirty_nodes := d, tree := s.tree.insert_before old id }
  | Option.none => { s with tree := s.tree.insert_before old id }

/-- `NodeMut::add_event_listener` (`real_dom.rs` lines 661-685): on an
element node, mark the listeners mask dirty, add the event to the node's
listener set and register the node in the reverse index; on any other payload
do nothing.  `none` models the panic of indexing a missing payload. -/
def NodeMut.add_event_listener (s : RealDom) (id : Nat) (event : EventName) :
    Option RealDom :=
  match s.node_types id with
  | Option.none => Option.none
  | Option.some (NodeType.Element el) =>
    let d := s.dirty_nodes.mark_dirty id NodeMaskBuilder.withListeners
    let el' := { el with listeners := Insert.insert event el.listeners }
    let hs := ((s.nodes_listening event).getD ∅)
    Option.some { s with
      dirty_nodes := d
      node_types := Function.update s.node_types id
        (Option.some (NodeType.Element el'))
      nodes_listening := Function.update s.nodes_listening event
        (Option.some (Insert.insert id hs)) }
  | Option.some _ => Option.some s

/-- `NodeMut::remove_event_listener` (`real_dom.rs` lines 689-705): on an
element node, mark the listeners mask dirty, drop the event from the node's
listener set and unregister the node from the reverse index (whose entry for
the event is unwrapped: its absence panics, modelled by `none`); on any other
payload do nothing. -/
def NodeMut.remove_event_listener (s : RealDom) (id : Nat) (event : EventName) :
    Option RealDom :=
  match s.node_types id with
  | Option.none => Option.none
  | Option.some (NodeType.Element el) =>
    let d := s.dirty_nodes.mark_dirty id NodeMaskBuilder.withListeners
    let el' := { el with listeners := el.listeners.erase event }
    match s.nodes_listening event with
    | Option.none => Option.none
    | Option.some hs =>
      Option.some { s with
        dirty_nodes := d
        node_types := Function.update s.node_types id
          (Option.some (NodeType.Element el'))
        nodes_listening := Function.update s.nodes_listening event
          (Option.some (hs.erase id)) }
  | Option.some _ => Option.some s

/-- `NodeMut::set_type` (`real_dom.rs` lines 731-739): replace the payload
and mark the node dirty with the full mask. -/
def NodeMut.set_type (s : RealDom) (id : Nat) (new : NodeType) : Option RealDom :=
  match s.node_types id with
  | Option.none => Option.none
  | Option.some _ =>
    Option.some { s with
      node_types := Function.update s.node_types id (Option.some new)
      dirty_nodes := s.dirty_nodes.mark_dirty id NodeMaskBuilder.ALL }

/-- `ElementNodeMut::set_attribute` (`real_dom.rs` lines 840-854): mark the
single attribute dirty and insert it, returning the previous value.  `none`
models the `unreachable!` on a non-element payload. -/
def ElementNodeMut.set_attribute (s : RealDom) (id : Nat)
    (name : AttributeName) (value : OwnedAttributeValue) :
    Option (RealDom × Option OwnedAttributeValue) :=
  match s.node_types id with
  | Option.some (NodeType.Element el) =>
    let d := s.dirty_nodes.mark_dirty id (NodeMaskBuilder.withAttrs {name})
    let (attrs', old) := attrInsert el.attributes name value
    Option.some
      ({ s with
        dirty_nodes := d
        node_types := Function.update s.node_types id
          (Option.some (NodeType.Element { el with attributes := attrs' })) }, old)
  | _ => Option.none

/-- `ElementNodeMut::remove_attribute` (`real_dom.rs` lines 857-865). -/
def ElementNodeMut.remove_attribute (s : RealDom) (id : Nat)
    (name : AttributeName) : Option (RealDom × Option OwnedAttributeValue) :=
  match s.node_types id with
  | Option.some (NodeType.Element el) =>
    let d := s.dirty_nodes.mark_dirty id (NodeMaskBuilder.withAttrs {name})
    let (attrs', old) := attrRemove el.attributes name
    Option.some
      ({ s with
        dirty_nodes := d
        node_types := Function.update s.node_types id
          (Option.some (NodeType.Element { el with attributes := attrs' })) }, old)
  | _ => Option.none

/-- `ElementNodeMut::get_attribute_mut` (`real_dom.rs` lines 868-879): mark
the single attribute dirty, then look it up. -/
def ElementNodeMut.get_attribute_mut (s : RealDom) (id : Nat)
    (name : AttributeName) : Option (RealDom × Option OwnedAttributeValue) :=
  match s.node_types id with
  | Option.some (NodeType.Element el) =>
    let d := s.dirty_nodes.mark_dirty id (NodeMaskBuilder.withAttrs {name})
    Option.some ({ s with dirty_nodes := d }, attrGet el.attributes name)
  | _ => Option.none

/-- `TextNodeMut::text_mut` followed by writing the string (`real_dom.rs`
lines 787-794): mark the text mask dirty and store the new text. -/
def TextNodeMut.write_text (s : RealDom) (id : Nat) (new : String) :
    Option RealDom :=
  match s.node_types id with
  | Option.some (NodeType.Text _) =>
    Option.some { s with
      dirty_nodes := s.dirty_nodes.mark_dirty id NodeMaskBuilder.withText
      node_types := Function.update s.node_types id
        (Option.some (NodeType.Text new)) }
  | _ => Option.none

/-- `NodeMut::remove` (`real_dom.rs` lines 629-657): purge the node's
listeners from the reverse index (unwrapping each index entry), mark the
parent child-changed, recursively remove the children (each looked up through
`get_mut(..).unwrap()`), remove the tree entry and delete the entity.  The
recursion is fuel-bounded; `none` models a panic or fuel exhaustion. -/
def RealDom.removeAux : Nat → RealDom → Nat → Option RealDom
  | 0, _, _ => Option.none
  | fuel + 1, s, id =>
    match s.node_types id with
    | Option.none => Option.none
    | Option.some nt =>
      let purged : Option RealDom :=
        match nt with
        | NodeType.Element el =>
          if ∀ e ∈ el.listeners, (s.nodes_listening e).isSome then
            Option.some { s with
              node_types := Function.update s.node_types id
                (Option.some (NodeType.Element { el with listeners := ∅ }))
              nodes_listening := fun e =>
                if e ∈ el.listeners then (s.nodes_listening e).map (·.erase id)
                else s.nodes_listening e }
          else Option.none
        | _ => Option.some s
      match purged with
      | Option.none => Option.none
      | Option.some s1 =>
        let s2 :=
          match s1.tree.parent_id id with
          | Option.some parent_id =>
            { s1 with dirty_nodes := s1.dirty_nodes.mark_child_changed parent_id }
          | Option.none => s1
        match (s1.tree.children_ids id).foldlM
            (fun acc c =>
              if acc.tree.contains c then RealDom.removeAux fuel acc c
              else Option.none) s2 with
        | Option.none => Option.none
        | Option.some s3 =>
          (DomTree.removeAux (fuel + 1) s3.tree id).map fun t =>
            { s3 with
              tree := t
              node_types := Function.update s3.node_types id Option.none
              components := fun ty n => if n = id then false else s3.components ty n }

/-- `NodeMut::clone_node` (`real_dom.rs` lines 744-757): create a node from
the source's payload, then recursively clone each child and reattach it to
the new node, returning the new id.  Fuel-bounded; `none` models a panic of
one of the `unwrap`s or fuel exhaustion. -/
def RealDom.cloneAux : Nat → RealDom → Nat → Option (RealDom × Nat)
  | 0, _, _ => Option.none
  | fuel + 1, s, id =>
    match s.node_types id with
    | Option.none => Option.none
    | Option.some new_node =>
      let (s1, new_id) := s.create_node new_node
      match (s1.tree.children_ids id).foldlM
          (fun acc c =>
            if acc.tree.contains c then
              (RealDom.cloneAux fuel acc c).bind fun p =>
                if p.1.tree.contains new_id then
                  Option.some (NodeMut.add_child p.1 new_id p.2)
                else Option.none
            else Option.none) s1 with
      | Option.none => Option.none
      | Option.some s2 => Option.some (s2, new_id)

/-- The per-cycle work queues (`DirtyNodeStates` from `passes.rs`, modelled
from the spec): for each registered pass, the dirty nodes keyed by their
height at drain time.  `dirty pass node = some h` means `(pass, node)` is
scheduled at height `h`. -/
structure DirtyNodeStates where
  dirty : Nat → Nat → Option Nat

/-- `RealDom::update_state` (`real_dom.rs` lines 325-349): take and clear the
dirty maps, build the height-ordered work queues from the taken dirty sets,
skipping nodes with no height in the tree, and return the taken accumulated
masks.  The workload run itself only reads the work queues and the component
stores (`passes.rs` is not under `src/`); it does not touch the dirty maps,
so it is not modelled here. -/
def RealDom.update_state (s : RealDom) :
    RealDom × DirtyNodeStates × (Nat → Option NodeMask) :=
  let passes := s.dirty_nodes.passes_updated
  let nodes_updated := s.dirty_nodes.nodes_updated
  let s1 := { s with
    dirty_nodes := { s.dirty_nodes with
      passes_updated := fun _ => Option.none
      nodes_updated := fun _ => Option.none } }
  let registered := s.dirty_nodes.passes.map (·.this_type_id)
  let dirty : DirtyNodeStates := ⟨fun pass node =>
    if registered.contains pass then
      match passes node, DomTree.heightAux s.next_id s.tree node with
      | Option.some ps, Option.some h =>
        if pass ∈ ps then Option.some h else Option.none
      | _, _ => Option.none
    else Option.none⟩
  (s1, dirty, nodes_updated)

/-- The first index of the pass with the given type id
(`unresloved_workloads.iter().find(..)` in `construct_workload`). -/
def find_pass_index : List TypeErasedState → Nat → Option Nat
  | [], _ => Option.none
  | p :: rest, ty =>
    if p.this_type_id = ty then Option.some 0
    else (find_pass_index rest ty).map (· + 1)

/-- `construct_workload` (`real_dom.rs` lines 883-920): tag each pass with its
index and give it an `after_all` edge to the index of every pass whose type id
is in its combined dependency set.  `none` models the panicking `unwrap` when
a declared dependency is not among the registered passes. -/
def construct_workload (passes : List TypeErasedState) :
    Option (List (Nat × Finset Nat)) :=
  passes.enum.mapM fun p =>
    ((p.2.combined_dependancy_type_ids.sort (· ≤ ·)).mapM
      (find_pass_index passes)).map fun deps => (p.1, deps.toFinset)

/-- The `after` constraint set of the system at index `i` of a built
workload. -/
def afterSet (w : List (Nat × Finset Nat)) (i : Nat) : Finset Nat :=
  ((w.get? i).map (·.2)).getD ∅

/-- Modelled from the spec: an execution schedule of the compiled pipeline is
any ordering of the scheduling units that runs each unit once and respects
every `after` edge; units with no dependency relation are left unordered. -/
def validSchedule (w : List (Nat × Finset Nat)) (order : List Nat) : Prop :=
  order.Perm (List.range w.length) ∧
    ∀ i j, i < w.length → j ∈ afterSet w i → order.indexOf j < order.indexOf i

/-- The payload shape of a subtree: the node's payload together with the
payload shapes of its children, in order. -/
inductive PayloadTree where
  | node : NodeType → List PayloadTree → PayloadTree

/-- Extract the payload shape of the subtree rooted at a node (fuel-bounded
traversal of the tree's children lists). -/
def RealDom.extract : Nat → RealDom → Nat → Option PayloadTree
  | 0, _, _ => Option.none
  | fuel + 1, s, id =>
    match s.node_types id with
    | Option.none => Option.none
    | Option.some nt =>
      ((s.tree.children_ids id).mapM (RealDom.extract fuel s)).map
        fun ts => PayloadTree.node nt ts

/-- The ids of the subtree rooted at a node, in preorder (fuel-bounded). -/
def DomTree.subtreeIds : Nat → DomTree → Nat → List Nat
  | 0, _, _ => []
  | fuel + 1, t, id =>
    id :: (t.children_ids id).flatMap (DomTree.subtreeIds fuel t)

/-- A pass descriptor with empty resolved dependants, used to build concrete
pass lists. -/
def mkState (tid : Nat) (pdeps cdeps ndeps : Finset Nat)
    (dir : PassDirection) (mask : NodeMask) : TypeErasedState :=
  ⟨tid, mask, pdeps, cdeps, ndeps, ⟨[], [], []⟩, dir, false⟩

/-- An entirely empty dirty tracker over the given passes. -/
def emptyDirty (passes : List TypeErasedState) : NodesDirty :=
  ⟨fun _ => Option.none, fun _ => Option.none, ∅, passes⟩

theorem union_ALL_right (m : NodeMask) :
    m.union NodeMaskBuilder.ALL = NodeMaskBuilder.ALL := by
  obtain ⟨a, t, l⟩ := m
  simp only [NodeMask.union, NodeMaskBuilder.ALL, Bool.or_true]
  cases a <;> rfl

theorem mark_dirty_passes_mem (d : NodesDirty) (node_id : Nat)
    (mask : NodeMask) (t : Nat) :
    t ∈ (((d.mark_dirty node_id mask).passes_updated node_id).getD ∅) ↔
      t ∈ ((d.passes_updated node_id).getD ∅) ∨
        ∃ p ∈ d.passes, p.this_type_id = t ∧ p.mask.overlaps mask := by
  simp only [NodesDirty.mark_dirty, Function.update_same, Option.getD_some,
    Finset.mem_union, List.mem_toFinset, List.mem_filterMap]
  constructor
  · rintro (h | ⟨p, hp, hf⟩)
    · exact Or.inl h
    · refine Or.inr ⟨p, hp, ?_⟩
      by_cases hov : p.mask.overlaps mask
      · simp only [hov, if_pos] at hf
        exact ⟨Option.some.inj hf, hov⟩
      · simp [hov] at hf
  · rintro (h | ⟨p, hp, ht, hov⟩)
    · exact Or.inl h
    · exact Or.inr ⟨p, hp, by simp [hov, ht]⟩

/-- Claim C1: `mark_dirty(node, m)` adds to the node's dirty pass set exactly
the type ids of the registered passes whose declared read mask overlaps `m`
(and nothing else, on no other node), and merges `m` by union into the node's
accumulated change mask; `set_attribute` routes through `mark_dirty` with the
single-attribute mask. -/
theorem C1_mark_dirty_mask_overlap (d : NodesDirty) (node_id : Nat)
    (mask : NodeMask) :
    (∀ t : Nat,
      t ∈ (((d.mark_dirty node_id mask).passes_updated node_id).getD ∅) ↔
        t ∈ ((d.passes_updated node_id).getD ∅) ∨
          ∃ p ∈ d.passes, p.this_type_id = t ∧ p.mask.overlaps mask) ∧
    ((d.mark_dirty node_id mask).nodes_updated node_id =
      Option.some (match d.nodes_updated node_id with
        | Option.some m => m.union mask
        | Option.none => mask)) ∧
    (∀ n, n ≠ node_id →
      (d.mark_dirty node_id mask).passes_updated n = d.passes_updated n ∧
        (d.mark_dirty node_id mask).nodes_updated n = d.nodes_updated n) ∧
    (∀ (s s' : RealDom) (id : Nat) (name : AttributeName)
        (value old : OwnedAttributeValue),
      ElementNodeMut.set_attribute s id name value = Option.some (s', Option.some old) ∨
        ElementNodeMut.set_attribute s id name value = Option.some (s', Option.none) →
      s'.dirty_nodes =
        s.dirty_nodes.mark_dirty id (NodeMaskBuilder.withAttrs {name})) := by
  refine ⟨fun t => mark_dirty_passes_mem d node_id mask t, ?_, ?_, ?_⟩
  · simp [NodesDirty.mark_dirty, Function.update_same]
  · intro n hn
    constructor <;> simp [NodesDirty.mark_dirty, Function.update_noteq hn]
  · intro s s' id name value old h
    rcases h with h | h <;>
    · unfold ElementNodeMut.set_attribute at h
      rcases hnt : s.node_types id with _ | nt
      · rw [hnt] at h; exact absurd h (by simp)
      · rcases nt with el | txt | _
        · rw [hnt] at h
          simp only [Option.some.injEq, Prod.mk.injEq] at h
          exact h.1 ▸ rfl
        · rw [hnt] at h; exact absurd h (by simp)
        · rw [hnt] at h; exact absurd h (by simp)

/-- Witness for C1 at a concrete tracker: one pass reads attribute `color`
(type id 7), another reads `width` (type id 9); marking a node dirty with the
`color` attribute mask adds exactly type id 7. -/
theorem C1_mark_dirty_mask_overlap_witness :
    7 ∈ ((((emptyDirty
        [mkState 7 ∅ ∅ ∅ .AnyOrder (NodeMaskBuilder.withAttrs {"color"}),
         mkState 9 ∅ ∅ ∅ .AnyOrder (NodeMaskBuilder.withAttrs {"width"})]).mark_dirty
        3 (NodeMaskBuilder.withAttrs {"color"})).passes_updated 3).getD ∅) ∧
    ¬ 9 ∈ ((((emptyDirty
        [mkState 7 ∅ ∅ ∅ .AnyOrder (NodeMaskBuilder.withAttrs {"color"}),
         mkState 9 ∅ ∅ ∅ .AnyOrder (NodeMaskBuilder.withAttrs {"width"})]).mark_dirty
        3 (NodeMaskBuilder.withAttrs {"color"})).passes_updated 3).getD ∅) := by
  constructor
  · exact (C1_mark_dirty_mask_overlap _ 3 (NodeMaskBuilder.withAttrs {"color"})).1 7
      |>.mpr (Or.inr ⟨mkState 7 ∅ ∅ ∅ .AnyOrder (NodeMaskBuilder.withAttrs {"color"}),
        by simp [emptyDirty], by simp [mkState], by decide⟩)
  · intro h
    rcases ((C1_mark_dirty_mask_overlap _ 3
        (NodeMaskBuilder.withAttrs {"color"})).1 9).mp h with h | ⟨p, hp, ht, hov⟩
    · simp [emptyDirty] at h
    · simp only [emptyDirty, List.mem_cons, List.mem_singleton] at hp
      rcases hp with rfl | rfl | h
      · simp [mkState] at ht
      · revert hov; decide
      · simp at h

/-- A two-pass tracker in which pass 0 declares parent and child dependencies
on pass 1's type, and pass 1 declares none. -/
def structuralDirty : NodesDirty :=
  emptyDirty
    [mkState 0 {1} {1} ∅ .AnyOrder (NodeMaskBuilder.withAttrs {"color"}),
     mkState 1 ∅ ∅ ∅ .AnyOrder (NodeMaskBuilder.withAttrs {"width"})]

/-- Claim C2 is refuted by the code: `mark_parent_added_or_removed` (and
`mark_child_changed`) insert the *dependency target* ids
(`pass.parent_dependancies_ids`) into the node's dirty set, not the type ids
of the passes declaring the dependency.  With pass 0 declaring a parent and a
child dependency on type 1, both marks dirty the node for pass 1 — which
declares no dependency — and not for pass 0, contradicting the claim (and the
code's own comment "if any of the states in this node depend on the parent
then mark them as dirty"). -/
theorem C2_mark_structural_divergence :
    ((structuralDirty.mark_parent_added_or_removed 5).passes_updated 5 =
      Option.some {1}) ∧
    (0 ∉ (((structuralDirty.mark_parent_added_or_removed 5).passes_updated 5).getD ∅)) ∧
    ((structuralDirty.mark_child_changed 5).passes_updated 5 = Option.some {1}) ∧
    (0 ∉ (((structuralDirty.mark_child_changed 5).passes_updated 5).getD ∅)) := by
  refine ⟨?_, by decide, ?_, by decide⟩ <;> decide

/-- Claim C6: every node created through `create_node` has a dirty pass set
containing every registered pass's type id and the full accumulated mask, and
the root created by `RealDom::new` likewise. -/
theorem C6_created_nodes_fully_dirty (s : RealDom) (node : NodeType)
    (states : List TypeErasedState) :
    (∀ p ∈ s.dirty_nodes.passes,
      p.this_type_id ∈
        (((s.create_node node).1.dirty_nodes.passes_updated
          (s.create_node node).2).getD ∅)) ∧
    ((s.create_node node).1.dirty_nodes.nodes_updated (s.create_node node).2 =
      Option.some NodeMaskBuilder.ALL) ∧
    (∀ p ∈ (RealDom.new states).dirty_nodes.passes,
      p.this_type_id ∈
        (((RealDom.new states).dirty_nodes.passes_updated
          (RealDom.new states).root_id).getD ∅)) ∧
    ((RealDom.new states).dirty_nodes.nodes_updated (RealDom.new states).root_id =
      Option.some NodeMaskBuilder.ALL) := by
  refine ⟨?_, ?_, ?_, ?_⟩
  · intro p hp
    simp only [RealDom.create_node, NodesDirty.mark_dirty, Function.update_same,
      Option.getD_some, Finset.mem_union, List.mem_toFinset, List.mem_map]
    exact Or.inl (Or.inr ⟨p, hp, rfl⟩)
  · rcases h : s.dirty_nodes.nodes_updated s.next_id with _ | m
    · simp [RealDom.create_node, NodesDirty.mark_dirty, Function.update_same, h]
    · simp [RealDom.create_node, NodesDirty.mark_dirty, Function.update_same, h,
        union_ALL_right]
  · intro p hp
    simp only [RealDom.new, Function.update_same, Option.getD_some,
      List.mem_toFinset, List.mem_map]
    exact ⟨p, hp, rfl⟩
  · simp [RealDom.new, Function.update_same]

/-- Witness for C6 at a concrete dom: creating a text node in a dom with one
registered pass (type id 4) marks the new node dirty for pass 4 with the full
mask. -/
theorem C6_created_nodes_fully_dirty_witness :
    4 ∈ ((((RealDom.new
        [mkState 4 ∅ ∅ ∅ .AnyOrder NodeMaskBuilder.ALL]).create_node
          (NodeType.Text ("hello"))).1.dirty_nodes.passes_updated
        ((RealDom.new
        [mkState 4 ∅ ∅ ∅ .AnyOrder NodeMaskBuilder.ALL]).create_node
          (NodeType.Text ("hello"))).2).getD ∅) :=
  (C6_created_nodes_fully_dirty
      (RealDom.new [mkState 4 ∅ ∅ ∅ .AnyOrder NodeMaskBuilder.ALL])
      (NodeType.Text ("hello")) []).1
    (mkState 4 ∅ ∅ ∅ .AnyOrder NodeMaskBuilder.ALL) (by decide)

/-- Claim C9: a mutable component lookup `get_mut::<T>` inserts `T`'s type id
into the node's dirty pass set before checking presence (so the mark happens
even when the component is absent and the lookup returns nothing), and
`get_attribute_mut` marks the single attribute dirty even when the attribute
is absent. -/
theorem C9_failed_mutable_lookup_marks_dirty (s : RealDom) (id : Nat)
    (t : Nat) :
    (t ∈ (((NodeMut.get_mut s id t).1.dirty_nodes.passes_updated id).getD ∅)) ∧
    ((NodeMut.get_mut s id t).2 = s.components t id) ∧
    (∀ (name : AttributeName) (el : ElementNode),
      s.node_types id = Option.some (NodeType.Element el) →
      ElementNodeMut.get_attribute_mut s id name =
        Option.some
          ({ s with dirty_nodes :=
              s.dirty_nodes.mark_dirty id (NodeMaskBuilder.withAttrs {name}) },
            attrGet el.attributes name)) := by
  refine ⟨?_, rfl, ?_⟩
  · simp [NodeMut.get_mut, Function.update_same]
  · intro name el h
    unfold ElementNodeMut.get_attribute_mut
    rw [h]

/-- Witness for C9: looking up the absent attribute `width` mutably on the
root of a fresh dom returns nothing yet marks the attribute dirty. -/
theorem C9_failed_mutable_lookup_marks_dirty_witness :
    ElementNodeMut.get_attribute_mut (RealDom.new []) 0 ("width") =
      Option.some
        ({ RealDom.new [] with dirty_nodes :=
            ((RealDom.new []).dirty_nodes.mark_dirty 0
              (NodeMaskBuilder.withAttrs {"width"})) }, Option.none) :=
  (C9_failed_mutable_lookup_marks_dirty (RealDom.new []) 0 0).2.2 ("width")
    ⟨"Root", [], ∅⟩ rfl

/-- Claim C10: adding or removing an event listener on a node whose payload is
`Text` or `Placeholder` returns the dom unchanged — no index update, no dirty
marking, no error. -/
theorem C10_listener_ops_non_element_noop (s : RealDom) (id : Nat)
    (e : EventName) :
    (∀ txt, s.node_types id = Option.some (NodeType.Text txt) →
      NodeMut.add_event_listener s id e = Option.some s ∧
        NodeMut.remove_event_listener s id e = Option.some s) ∧
    (s.node_types id = Option.some NodeType.Placeholder →
      NodeMut.add_event_listener s id e = Option.some s ∧
        NodeMut.remove_event_listener s id e = Option.some s) := by
  constructor
  · intro txt h
    constructor
    · unfold NodeMut.add_event_listener
      rw [h]
    · unfold NodeMut.remove_event_listener
      rw [h]
  · intro h
    constructor
    · unfold NodeMut.add_event_listener
      rw [h]
    · unfold NodeMut.remove_event_listener
      rw [h]

/-- Witness for C10: listener calls on a freshly created text node leave the
dom untouched. -/
theorem C10_listener_ops_non_element_noop_witness :
    NodeMut.add_event_listener
        ((RealDom.new []).create_node (NodeType.Text ("hi"))).1 1 ("click") =
      Option.some ((RealDom.new []).create_node (NodeType.Text ("hi"))).1 :=
  ((C10_listener_ops_non_element_noop
      ((RealDom.new []).create_node (NodeType.Text ("hi"))).1 1 ("click")).1
    ("hi") rfl).1

theorem heightAux_none_of_missing (t : DomTree) (id : Nat)
    (h : t.nodes id = Option.none) :
    ∀ fuel, DomTree.heightAux fuel t id = Option.none := by
  intro fuel
  cases fuel with
  | zero => rfl
  | succ f => simp [DomTree.heightAux, h]

/-- Claim C4: `update_state` atomically takes and clears the dirty maps
(afterwards both per-node maps are empty), returns the accumulated masks taken
at the start, and enqueues a `(pass, node)` pair at a height iff the pair was
in the taken dirty set for a registered pass and the node still has a height
at drain time; in particular nodes no longer in the tree are never
scheduled. -/
theorem C4_update_state_drain (s : RealDom) :
    (s.update_state.1.dirty_nodes.passes_updated = fun _ => Option.none) ∧
    (s.update_state.1.dirty_nodes.nodes_updated = fun _ => Option.none) ∧
    (s.update_state.2.2 = s.dirty_nodes.nodes_updated) ∧
    (∀ (pass : Nat) (node : Nat) (h : Nat),
      s.update_state.2.1.dirty pass node = Option.some h ↔
        ((s.dirty_nodes.passes.map fun p => p.this_type_id).contains pass = true ∧
          (∃ ps, s.dirty_nodes.passes_updated node = Option.some ps ∧ pass ∈ ps) ∧
          DomTree.heightAux s.next_id s.tree node = Option.some h)) ∧
    (∀ (pass : Nat) (node : Nat),
      s.tree.nodes node = Option.none →
        s.update_state.2.1.dirty pass node = Option.none) := by
  refine ⟨rfl, rfl, rfl, ?_, ?_⟩
  · intro pass node h
    show (if (s.dirty_nodes.passes.map fun p => p.this_type_id).contains pass
        then _ else Option.none) = Option.some h ↔ _
    by_cases hreg : (s.dirty_nodes.passes.map fun p => p.this_type_id).contains pass
    · rw [if_pos hreg]
      rcases hps : s.dirty_nodes.passes_updated node with _ | ps <;>
        rcases hh : DomTree.heightAux s.next_id s.tree node with _ | hgt
      · exact iff_of_false (by simp) (by rintro ⟨-, ⟨ps', hps', -⟩, -⟩; simp [hps] at hps')
      · exact iff_of_false (by simp) (by rintro ⟨-, ⟨ps', hps', -⟩, -⟩; simp [hps] at hps')
      · exact iff_of_false (by simp) (by rintro ⟨-, -, hh'⟩; simp [hh] at hh')
      · change (if pass ∈ ps then Option.some hgt else Option.none) = _ ↔ _
        by_cases hmem : pass ∈ ps
        · rw [if_pos hmem]
          constructor
          · intro he
            exact ⟨hreg, ⟨ps, rfl, hmem⟩, he⟩
          · rintro ⟨-, -, hh'⟩
            exact hh'
        · rw [if_neg hmem]
          refine iff_of_false (by simp) ?_
          rintro ⟨-, ⟨ps', hps', hmem'⟩, -⟩
          exact hmem (Option.some.inj hps' ▸ hmem')
    · rw [if_neg hreg]
      exact iff_of_false (by simp) (fun hc => hreg hc.1)
  · intro pass node hnode
    show (if (s.dirty_nodes.passes.map fun p => p.this_type_id).contains pass
        then _ else Option.none) = Option.none
    by_cases hreg : (s.dirty_nodes.passes.map fun p => p.this_type_id).contains pass
    · rw [if_pos hreg]
      rcases hps : s.dirty_nodes.passes_updated node with _ | ps <;>
        rw [heightAux_none_of_missing s.tree node hnode s.next_id]
    · rw [if_neg hreg]

/-- Witness for C4: in a fresh dom a node id with no tree entry is never
scheduled. -/
theorem C4_update_state_drain_witness :
    (RealDom.new []).update_state.2.1.dirty 0 5 = Option.none :=
  (C4_update_state_drain (RealDom.new [])).2.2.2.2 0 5 rfl

theorem optionMapM_isSome {α β : Type} (f : α → Option β) :
    ∀ l : List α, (∀ a ∈ l, (f a).isSome) → (l.mapM f).isSome
  | [], _ => by rfl
  | a :: l, h => by
    have hfa := h a (List.mem_cons_self a l)
    have ih := optionMapM_isSome f l fun x hx => h x (List.mem_cons_of_mem a hx)
    rcases hfa' : f a with _ | b
    · rw [hfa'] at hfa; simp at hfa
    · rcases hml : l.mapM f with _ | r
      · rw [hml] at ih; simp at ih
      · rw [List.mapM_cons, hfa', hml]
        rfl

theorem optionMapM_length {α β : Type} (f : α → Option β) :
    ∀ (l : List α) (r : List β), l.mapM f = Option.some r → r.length = l.length
  | [], r, h => by
    rw [List.mapM_nil] at h
    cases Option.some.inj h
    rfl
  | a :: l, r, h => by
    rw [List.mapM_cons] at h
    rcases hfa : f a with _ | b <;> rw [hfa] at h
    · simp at h
    · rcases hml : l.mapM f with _ | r' <;> rw [hml] at h
      · simp at h
      · have ih := optionMapM_length f l r' hml
        have h' : b :: r' = r := Option.some.inj h
        subst h'
        simp [ih]

theorem optionMapM_mem {α β : Type} (f : α → Option β) :
    ∀ (l : List α) (r : List β), l.mapM f = Option.some r →
      ∀ b, b ∈ r ↔ ∃ a ∈ l, f a = Option.some b
  | [], r, h => by
    rw [List.mapM_nil] at h
    cases Option.some.inj h
    simp
  | a :: l, r, h => by
    rw [List.mapM_cons] at h
    rcases hfa : f a with _ | b0 <;> rw [hfa] at h
    · simp at h
    · rcases hml : l.mapM f with _ | r' <;> rw [hml] at h
      · simp at h
      · have ih := optionMapM_mem f l r' hml
        have h' : b0 :: r' = r := Option.some.inj h
        subst h'
        intro b
        simp only [List.mem_cons, ih b]
        constructor
        · rintro (rfl | ⟨x, hx, hfx⟩)
          · exact ⟨a, Or.inl rfl, hfa⟩
          · exact ⟨x, Or.inr hx, hfx⟩
        · rintro ⟨x, rfl | hx, hfx⟩
          · rw [hfa] at hfx
            exact Or.inl (Option.some.inj hfx).symm
          · exact Or.inr ⟨x, hx, hfx⟩

theorem optionMapM_get {α β : Type} (f : α → Option β) :
    ∀ (l : List α) (r : List β), l.mapM f = Option.some r →
      ∀ i (hi : i < l.length) (hri : i < r.length),
        f (l.get ⟨i, hi⟩) = Option.some (r.get ⟨i, hri⟩)
  | [], r, h, i, hi, hri => by simp at hi
  | a :: l, r, h, i, hi, hri => by
    rw [List.mapM_cons] at h
    rcases hfa : f a with _ | b0 <;> rw [hfa] at h
    · simp at h
    · rcases hml : l.mapM f with _ | r' <;> rw [hml] at h
      · simp at h
      · have ih := optionMapM_get f l r' hml
        have h' : b0 :: r' = r := Option.some.inj h
        subst h'
        cases i with
        | zero => simpa using hfa
        | succ k =>
          have hk : k < l.length := Nat.lt_of_succ_lt_succ hi
          have hrk : k < r'.length := Nat.lt_of_succ_lt_succ hri
          simpa using ih k hk hrk

theorem find_pass_index_isSome :
    ∀ (passes : List TypeErasedState) (ty : Nat),
      (∃ q ∈ passes, q.this_type_id = ty) → (find_pass_index passes ty).isSome
  | [], ty, h => by simp at h
  | p :: rest, ty, h => by
    unfold find_pass_index
    by_cases hp : p.this_type_id = ty
    · simp [hp]
    · rw [if_neg hp]
      rcases h with ⟨q, hq, hqt⟩
      rcases List.mem_cons.mp hq with rfl | hq'
      · exact absurd hqt hp
      · have := find_pass_index_isSome rest ty ⟨q, hq', hqt⟩
        rcases hf : find_pass_index rest ty with _ | k
        · rw [hf] at this; simp at this
        · simp [hf]

theorem find_pass_index_some :
    ∀ (passes : List TypeErasedState) (ty : Nat) (j : Nat),
      (passes.map fun p => p.this_type_id).Nodup →
      (find_pass_index passes ty = Option.some j ↔
        ∃ hj : j < passes.length, (passes.get ⟨j, hj⟩).this_type_id = ty)
  | [], ty, j, _ => by
    constructor
    · intro h; simp [find_pass_index] at h
    · rintro ⟨hj, -⟩; simp at hj
  | p :: rest, ty, j, hnd => by
    rw [List.map_cons, List.nodup_cons] at hnd
    unfold find_pass_index
    by_cases hp : p.this_type_id = ty
    · rw [if_pos hp]
      constructor
      · intro h
        cases Option.some.inj h
        exact ⟨Nat.succ_pos _, hp⟩
      · rintro ⟨hj, hjt⟩
        cases j with
        | zero => rfl
        | succ k =>
          exfalso
          apply hnd.1
          rw [List.mem_map]
          refine ⟨rest.get ⟨k, Nat.lt_of_succ_lt_succ hj⟩, List.get_mem _ _ _, ?_⟩
          have hjt' : (rest.get ⟨k, Nat.lt_of_succ_lt_succ hj⟩).this_type_id = ty := hjt
          rw [hjt', hp]
    · rw [if_neg hp]
      constructor
      · intro h
        rcases hf : find_pass_index rest ty with _ | k <;> rw [hf] at h
        · simp at h
        · simp only [Option.map_some', Option.some.injEq] at h
          subst h
          rcases (find_pass_index_some rest ty k hnd.2).mp hf with ⟨hk, hkt⟩
          exact ⟨Nat.succ_lt_succ hk, hkt⟩
      · rintro ⟨hj, hjt⟩
        cases j with
        | zero => exact absurd hjt hp
        | succ k =>
          have hk : k < rest.length := Nat.lt_of_succ_lt_succ hj
          have hfk : find_pass_index rest ty = Option.some k :=
            (find_pass_index_some rest ty k hnd.2).mpr ⟨hk, hjt⟩
          rw [hfk]
          rfl

theorem construct_workload_get (passes : List TypeErasedState)
    (w : List (Nat × Finset Nat)) (hw : construct_workload passes = Option.some w)
    (i : Nat) (hi : i < passes.length) :
    w.length = passes.length ∧
    ∃ r : List Nat,
      ((passes.get ⟨i, hi⟩).combined_dependancy_type_ids.sort (· ≤ ·)).mapM
          (find_pass_index passes) = Option.some r ∧
      ∃ hiw : i < w.length, w.get ⟨i, hiw⟩ = (i, r.toFinset) := by
  have hlen := optionMapM_length _ _ _ hw
  rw [List.enum_length] at hlen
  have hiw : i < w.length := hlen ▸ hi
  have hienum : i < passes.enum.length := by rw [List.enum_length]; exact hi
  have hget := optionMapM_get _ _ _ hw i hienum hiw
  have henum : passes.enum.get ⟨i, hienum⟩ = (i, passes.get ⟨i, hi⟩) := by
    simp [List.get_eq_getElem, List.getElem_enum]
  rw [henum] at hget
  refine ⟨hlen, ?_⟩
  have hget' : (((passes.get ⟨i, hi⟩).combined_dependancy_type_ids.sort (· ≤ ·)).mapM
      (find_pass_index passes)).map (fun deps => (i, deps.toFinset)) =
      Option.some (w.get ⟨i, hiw⟩) := hget
  rcases hmm : ((passes.get ⟨i, hi⟩).combined_dependancy_type_ids.sort (· ≤ ·)).mapM
      (find_pass_index passes) with _ | r <;> rw [hmm] at hget'
  · simp at hget'
  · simp only [Option.map_some', Option.some.injEq] at hget'
    exact ⟨r, rfl, hiw, hget'.symm⟩

/-- Claim C5: the compiled workload gives the system of pass `i` an `after`
edge to the system of pass `j` exactly when `j`'s type id is in `i`'s
combined dependency set — a partial order with no constraints between
independent passes — and in any valid schedule of the pipeline every pass
runs exactly once and strictly after every pass it depends on; each scheduled
`(node, pass)` pair sits at exactly one height in its pass's work queue, so
it is executed exactly once per cycle. -/
theorem C5_workload_dependency_order (passes : List TypeErasedState)
    (hnodup : (passes.map fun p => p.this_type_id).Nodup)
    (hres : ∀ p ∈ passes, ∀ ty ∈ p.combined_dependancy_type_ids,
      ∃ q ∈ passes, q.this_type_id = ty) :
    (∃ w, construct_workload passes = Option.some w ∧ w.length = passes.length) ∧
    (∀ w, construct_workload passes = Option.some w →
      ∀ i j (hi : i < passes.length) (hj : j < passes.length),
        (j ∈ afterSet w i ↔
          (passes.get ⟨j, hj⟩).this_type_id ∈
            (passes.get ⟨i, hi⟩).combined_dependancy_type_ids)) ∧
    (∀ w order, construct_workload passes = Option.some w →
      validSchedule w order →
      (∀ i, i < passes.length → order.count i = 1) ∧
      (∀ i j (hi : i < passes.length) (hj : j < passes.length),
        (passes.get ⟨j, hj⟩).this_type_id ∈
          (passes.get ⟨i, hi⟩).combined_dependancy_type_ids →
        order.indexOf j < order.indexOf i)) ∧
    (∀ (s : RealDom) (pass : Nat) (node : Nat) (h1 h2 : Nat),
      s.update_state.2.1.dirty pass node = Option.some h1 →
      s.update_state.2.1.dirty pass node = Option.some h2 → h1 = h2) := by
  have hchar : ∀ w, construct_workload passes = Option.some w →
      ∀ i j (hi : i < passes.length) (hj : j < passes.length),
        (j ∈ afterSet w i ↔
          (passes.get ⟨j, hj⟩).this_type_id ∈
            (passes.get ⟨i, hi⟩).combined_dependancy_type_ids) := by
    intro w hw i j hi hj
    rcases construct_workload_get passes w hw i hi with ⟨hlen, r, hr, hiw, hwi⟩
    have hset : afterSet w i = r.toFinset := by
      unfold afterSet
      rw [List.get?_eq_get hiw, hwi]
      rfl
    rw [hset, List.mem_toFinset, optionMapM_mem _ _ _ hr j]
    constructor
    · rintro ⟨ty, hty, hfind⟩
      rcases (find_pass_index_some passes ty j hnodup).mp hfind with ⟨hj', htid⟩
      have heq : (passes.get ⟨j, hj'⟩).this_type_id =
          (passes.get ⟨j, hj⟩).this_type_id := rfl
      rw [Finset.mem_sort] at hty
      rw [← htid, heq] at hty
      exact hty
    · intro hty
      exact ⟨(passes.get ⟨j, hj⟩).this_type_id, (Finset.mem_sort _).mpr hty,
        (find_pass_index_some passes _ j hnodup).mpr ⟨hj, rfl⟩⟩
  have hlen' : ∀ w, construct_workload passes = Option.some w →
      w.length = passes.length := by
    intro w hw
    have := optionMapM_length _ _ _ hw
    rw [List.enum_length] at this
    exact this
  refine ⟨?_, hchar, ?_, ?_⟩
  · have hsome : (construct_workload passes).isSome := by
      apply optionMapM_isSome
      intro p hmem
      have hp : p.2 ∈ passes := List.snd_mem_of_mem_enum hmem
      rw [Option.isSome_map']
      apply optionMapM_isSome
      intro ty hty
      rw [Finset.mem_sort] at hty
      exact find_pass_index_isSome passes ty (hres p.2 hp ty hty)
    rcases hcw : construct_workload passes with _ | w
    · rw [hcw] at hsome; simp at hsome
    · exact ⟨w, rfl, hlen' w hcw⟩
  · intro w order hw hsch
    refine ⟨?_, ?_⟩
    · intro i hi
      have hiw : i < w.length := by rw [hlen' w hw]; exact hi
      rw [hsch.1.count_eq i]
      exact List.count_eq_one_of_mem (List.nodup_range w.length)
        (List.mem_range.mpr hiw)
    · intro i j hi hj hdep
      have hiw : i < w.length := by rw [hlen' w hw]; exact hi
      exact hsch.2 i j hiw ((hchar w hw i j hi hj).mpr hdep)
  · intro s pass node h1 h2 e1 e2
    exact Option.some.inj (e1.symm.trans e2)

/-- Witness for C5 at two concrete passes: pass at index 1 (type 8) declares a
node dependency on type 3 (index 0), so the built workload orders system 1
after system 0 and any valid schedule runs each exactly once. -/
theorem C5_workload_dependency_order_witness :
    ∃ w, construct_workload
        [mkState 3 ∅ ∅ ∅ .AnyOrder NodeMaskBuilder.ALL,
         mkState 8 ∅ ∅ {3} .AnyOrder NodeMaskBuilder.ALL] = Option.some w ∧
      w.length = 2 :=
  (C5_workload_dependency_order
      [mkState 3 ∅ ∅ ∅ .AnyOrder NodeMaskBuilder.ALL,
       mkState 8 ∅ ∅ {3} .AnyOrder NodeMaskBuilder.ALL]
      (by decide)
      (by decide)).1

theorem mapWithIdx_get? {α : Type} (f : Nat → α → α) :
    ∀ (l : List α) (i k : Nat),
      (mapWithIdx f i l).get? k = (l.get? k).map (f (i + k))
  | [], i, k => by simp [mapWithIdx]
  | x :: xs, i, 0 => by simp [mapWithIdx]
  | x :: xs, i, k + 1 => by
    have ih := mapWithIdx_get? f xs (i + 1) k
    simp only [mapWithIdx, List.get?_cons_succ, ih]
    have : i + 1 + k = i + (k + 1) := by omega
    rw [this]

theorem mapWithIdx_length {α : Type} (f : Nat → α → α) :
    ∀ (i : Nat) (l : List α), (mapWithIdx f i l).length = l.length
  | _, [] => rfl
  | i, x :: xs => by simp [mapWithIdx, mapWithIdx_length f (i + 1) xs]

theorem mapWithIdx_id {α : Type} (f : Nat → α → α) :
    ∀ (l : List α) (i : Nat),
      (∀ k x, l.get? k = Option.some x → f (i + k) x = x) →
      mapWithIdx f i l = l
  | [], _, _ => rfl
  | x :: xs, i, h => by
    have hx : f i x = x := by
      have := h 0 x rfl
      simpa using this
    have hxs : mapWithIdx f (i + 1) xs = xs := by
      apply mapWithIdx_id f xs (i + 1)
      intro k y hy
      have := h (k + 1) y (by simpa using hy)
      have harith : i + (k + 1) = i + 1 + k := by omega
      rw [harith] at this
      exact this
    simp [mapWithIdx, hx, hxs]

/-- The resolution loop cut after `k` of its iterations. -/
def resolveUpTo (states : List TypeErasedState) : Nat → List TypeErasedState
  | 0 => states
  | k + 1 => resolveStep (resolveUpTo states k) k

theorem resolveUpTo_eq_foldl (states : List TypeErasedState) :
    ∀ k, resolveUpTo states k = (List.range k).foldl resolveStep states := by
  intro k
  induction k with
  | zero => rfl
  | succ n ih =>
    rw [List.range_succ, List.foldl_append]
    simp [resolveUpTo, ih]

theorem resolve_dependants_eq_upTo (states : List TypeErasedState) :
    resolve_dependants states = resolveUpTo states states.length :=
  (resolveUpTo_eq_foldl states states.length).symm

theorem resolveStep_length (states : List TypeErasedState) (i : Nat) :
    (resolveStep states i).length = states.length := by
  unfold resolveStep
  rcases states.get? i with _ | current
  · rfl
  · exact mapWithIdx_length _ 0 states

theorem resolveUpTo_length (states : List TypeErasedState) :
    ∀ k, (resolveUpTo states k).length = states.length
  | 0 => rfl
  | k + 1 => by rw [resolveUpTo, resolveStep_length, resolveUpTo_length states k]

theorem resolveOther_child (c st : TypeErasedState) :
    (resolveOther c st).dependants.child =
      if st.this_type_id ∈ c.parent_dependancies_ids ∧
          dependantOf c ∉ st.dependants.child then
        st.dependants.child ++ [dependantOf c]
      else st.dependants.child := rfl

theorem resolveOther_parent (c st : TypeErasedState) :
    (resolveOther c st).dependants.parent =
      if st.this_type_id ∈ c.child_dependancies_ids ∧
          dependantOf c ∉ st.dependants.parent then
        st.dependants.parent ++ [dependantOf c]
      else st.dependants.parent := rfl

theorem resolveOther_node (c st : TypeErasedState) :
    (resolveOther c st).dependants.node =
      if st.this_type_id ∈ c.node_dependancies_ids ∧
          c.this_type_id ∉ st.dependants.node then
        st.dependants.node ++ [c.this_type_id]
      else st.dependants.node := rfl

theorem resolveOther_eq_update (c st : TypeErasedState) :
    resolveOther c st = { st with dependants := (resolveOther c st).dependants } := rfl

theorem resolveSelf_eq_update (st : TypeErasedState) :
    resolveSelf st = { st with dependants := (resolveSelf st).dependants } := by
  unfold resolveSelf
  rcases st.pass_direction <;> rfl

theorem resolveSelf_child (st : TypeErasedState) :
    (resolveSelf st).dependants.child =
      if st.pass_direction = PassDirection.ParentToChild ∧
          dependantOf st ∉ st.dependants.child then
        st.dependants.child ++ [dependantOf st]
      else st.dependants.child := by
  unfold resolveSelf
  rcases hdir : st.pass_direction <;> simp only [hdir]
  · by_cases hmem : dependantOf st ∉ st.dependants.child <;> simp [hmem]
  · split <;> rfl
  · simp

theorem resolveSelf_parent (st : TypeErasedState) :
    (resolveSelf st).dependants.parent =
      if st.pass_direction = PassDirection.ChildToParent ∧
          dependantOf st ∉ st.dependants.parent then
        st.dependants.parent ++ [dependantOf st]
      else st.dependants.parent := by
  unfold resolveSelf
  rcases hdir : st.pass_direction <;> simp only [hdir]
  · split <;> rfl
  · by_cases hmem : dependantOf st ∉ st.dependants.parent <;> simp [hmem]
  · simp

theorem resolveSelf_node (st : TypeErasedState) :
    (resolveSelf st).dependants.node = st.dependants.node := by
  unfold resolveSelf
  rcases hdir : st.pass_direction <;> simp only [hdir] <;>
    first
    | rfl
    | (split <;> rfl)

theorem withDependants_self (st : TypeErasedState) :
    { st with dependants := st.dependants } = st := rfl

theorem tid_inj (states : List TypeErasedState)
    (hnodup : (states.map fun p => p.this_type_id).Nodup) :
    ∀ i j sti stj, states.get? i = Option.some sti →
      states.get? j = Option.some stj →
      sti.this_type_id = stj.this_type_id → i = j := by
  intro i j sti stj hi hj htid
  rcases List.get?_eq_some.mp hi with ⟨hi', -⟩
  have hmi : i < (states.map fun p => p.this_type_id).length := by
    simpa using hi'
  apply List.getElem?_inj hmi hnodup
  rw [List.getElem?_map, List.getElem?_map, ← List.get?_eq_getElem?,
    ← List.get?_eq_getElem?, hi, hj]
  simp [htid]

/-- The state of all dependants lists after `k` iterations of the resolution
loop: every edge contributed by a current pass of index below `k` (and the
direction self edge of each such pass) is present, nothing else is, and no
list holds duplicates. -/
def ResolvedUpTo (states S : List TypeErasedState) (k : Nat) : Prop :=
  ∀ j stj, states.get? j = Option.some stj →
    ∃ D : PassDependants,
      S.get? j = Option.some { stj with dependants := D } ∧
      (∀ d, d ∈ D.child ↔
        ((∃ i sti, states.get? i = Option.some sti ∧ i < k ∧ i ≠ j ∧
          d = dependantOf sti ∧ stj.this_type_id ∈ sti.parent_dependancies_ids) ∨
        (j < k ∧ d = dependantOf stj ∧
          stj.pass_direction = PassDirection.ParentToChild))) ∧
      (∀ d, d ∈ D.parent ↔
        ((∃ i sti, states.get? i = Option.some sti ∧ i < k ∧ i ≠ j ∧
          d = dependantOf sti ∧ stj.this_type_id ∈ sti.child_dependancies_ids) ∨
        (j < k ∧ d = dependantOf stj ∧
          stj.pass_direction = PassDirection.ChildToParent))) ∧
      (∀ ty, ty ∈ D.node ↔
        (∃ i sti, states.get? i = Option.some sti ∧ i < k ∧ i ≠ j ∧
          ty = sti.this_type_id ∧ stj.this_type_id ∈ sti.node_dependancies_ids)) ∧
      D.child.Nodup ∧ D.parent.Nodup ∧ D.node.Nodup

theorem resolvedUpTo_zero (states : List TypeErasedState)
    (hempty : ∀ st ∈ states, st.dependants = ⟨[], [], []⟩) :
    ResolvedUpTo states states 0 := by
  intro j stj hj
  refine ⟨⟨[], [], []⟩, ?_, ?_, ?_, ?_, List.nodup_nil, List.nodup_nil,
    List.nodup_nil⟩
  · have he : stj.dependants = ⟨[], [], []⟩ :=
      hempty stj (List.get?_mem hj)
    rw [← he, withDependants_self]
    exact hj
  · intro d
    simp
  · intro d
    simp
  · intro ty
    simp

theorem nodup_append_single {α : Type} (l : List α) (a : α) (h : l.Nodup)
    (ha : a ∉ l) : (l ++ [a]).Nodup := by
  simp [List.nodup_append, h, ha]

theorem resolveSelf_child_update (stj : TypeErasedState) (Dj : PassDependants) :
    (resolveSelf { stj with dependants := Dj }).dependants.child =
      if stj.pass_direction = PassDirection.ParentToChild ∧
          dependantOf stj ∉ Dj.child then
        Dj.child ++ [dependantOf stj]
      else Dj.child :=
  resolveSelf_child { stj with dependants := Dj }

theorem resolveSelf_parent_update (stj : TypeErasedState) (Dj : PassDependants) :
    (resolveSelf { stj with dependants := Dj }).dependants.parent =
      if stj.pass_direction = PassDirection.ChildToParent ∧
          dependantOf stj ∉ Dj.parent then
        Dj.parent ++ [dependantOf stj]
      else Dj.parent :=
  resolveSelf_parent { stj with dependants := Dj }

theorem resolveSelf_node_update (stj : TypeErasedState) (Dj : PassDependants) :
    (resolveSelf { stj with dependants := Dj }).dependants.node = Dj.node :=
  resolveSelf_node { stj with dependants := Dj }

theorem resolvedUpTo_succ (states : List TypeErasedState)
    (hnodup : (states.map fun p => p.this_type_id).Nodup)
    (k : Nat) (hk : k < states.length) (S : List TypeErasedState)
    (hinv : ResolvedUpTo states S k) :
    ResolvedUpTo states (resolveStep S k) (k + 1) := by
  obtain ⟨stk, hsk⟩ : ∃ stk, states.get? k = Option.some stk :=
    ⟨_, List.get?_eq_get hk⟩
  obtain ⟨Dk, hSk, hkc, hkp, hkn, -, -, -⟩ := hinv k stk hsk
  have hstep : resolveStep S k =
      mapWithIdx (fun j st => if j = k then resolveSelf st
        else resolveOther { stk with dependants := Dk } st) 0 S := by
    unfold resolveStep
    rw [hSk]
  intro j stj hj
  obtain ⟨Dj, hSj, hjc, hjp, hjn, ndc, ndp, ndn⟩ := hinv j stj hj
  have hget : (resolveStep S k).get? j =
      Option.some (if j = k then resolveSelf { stj with dependants := Dj }
        else resolveOther { stk with dependants := Dk }
          { stj with dependants := Dj }) := by
    rw [hstep, mapWithIdx_get? _ S 0 j, hSj]
    simp only [Option.map_some', Nat.zero_add]
  by_cases hjk : j = k
  · subst hjk
    have hstjk : stk = stj := Option.some.inj (hsk.symm.trans hj)
    subst hstjk
    rw [if_pos rfl] at hget
    refine ⟨(resolveSelf { stk with dependants := Dj }).dependants, ?_, ?_, ?_, ?_,
      ?_, ?_, ?_⟩
    · rw [hget]
      exact congrArg Option.some (resolveSelf_eq_update _)
    · -- child list of the self step
      intro d
      rw [resolveSelf_child_update]
      by_cases hdir : stk.pass_direction = PassDirection.ParentToChild
      · have hnotin : dependantOf stk ∉ Dj.child := by
          intro hmem
          rcases (hjc _).mp hmem with ⟨i, sti, hsti, hik, hij, hde, -⟩ | ⟨hkk, -, -⟩
          · have htid : sti.this_type_id = stk.this_type_id :=
              congrArg Dependant.type_id hde.symm
            exact hij (tid_inj states hnodup i j sti stk hsti hj htid)
          · exact absurd hkk (lt_irrefl j)
        rw [if_pos ⟨hdir, hnotin⟩]
        simp only [List.mem_append, List.mem_singleton, hjc d]
        constructor
        · rintro ((⟨i, sti, hsti, hik, hij, hde, hpd⟩ | ⟨hkk, -, -⟩) | rfl)
          · exact Or.inl ⟨i, sti, hsti, by omega, hij, hde, hpd⟩
          · exact absurd hkk (lt_irrefl j)
          · exact Or.inr ⟨Nat.lt_succ_self j, rfl, hdir⟩
        · rintro (⟨i, sti, hsti, hik, hij, hde, hpd⟩ | ⟨-, rfl, -⟩)
          · have hik' : i < j := by omega
            exact Or.inl (Or.inl ⟨i, sti, hsti, hik', hij, hde, hpd⟩)
          · exact Or.inr rfl
      · rw [if_neg (fun hc => hdir hc.1)]
        simp only [hjc d]
        constructor
        · rintro (⟨i, sti, hsti, hik, hij, hde, hpd⟩ | ⟨hkk, -, -⟩)
          · exact Or.inl ⟨i, sti, hsti, by omega, hij, hde, hpd⟩
          · exact absurd hkk (lt_irrefl j)
        · rintro (⟨i, sti, hsti, hik, hij, hde, hpd⟩ | ⟨-, -, hdir'⟩)
          · have hik' : i < j := by omega
            exact Or.inl ⟨i, sti, hsti, hik', hij, hde, hpd⟩
          · exact absurd hdir' hdir
    · -- parent list of the self step
      intro d
      rw [resolveSelf_parent_update]
      by_cases hdir : stk.pass_direction = PassDirection.ChildToParent
      · have hnotin : dependantOf stk ∉ Dj.parent := by
          intro hmem
          rcases (hjp _).mp hmem with ⟨i, sti, hsti, hik, hij, hde, -⟩ | ⟨hkk, -, -⟩
          · have htid : sti.this_type_id = stk.this_type_id :=
              congrArg Dependant.type_id hde.symm
            exact hij (tid_inj states hnodup i j sti stk hsti hj htid)
          · exact absurd hkk (lt_irrefl j)
        rw [if_pos ⟨hdir, hnotin⟩]
        simp only [List.mem_append, List.mem_singleton, hjp d]
        constructor
        · rintro ((⟨i, sti, hsti, hik, hij, hde, hpd⟩ | ⟨hkk, -, -⟩) | rfl)
          · exact Or.inl ⟨i, sti, hsti, by omega, hij, hde, hpd⟩
          · exact absurd hkk (lt_irrefl j)
          · exact Or.inr ⟨Nat.lt_succ_self j, rfl, hdir⟩
        · rintro (⟨i, sti, hsti, hik, hij, hde, hpd⟩ | ⟨-, rfl, -⟩)
          · have hik' : i < j := by omega
            exact Or.inl (Or.inl ⟨i, sti, hsti, hik', hij, hde, hpd⟩)
          · exact Or.inr rfl
      · rw [if_neg (fun hc => hdir hc.1)]
        simp only [hjp d]
        constructor
        · rintro (⟨i, sti, hsti, hik, hij, hde, hpd⟩ | ⟨hkk, -, -⟩)
          · exact Or.inl ⟨i, sti, hsti, by omega, hij, hde, hpd⟩
          · exact absurd hkk (lt_irrefl j)
        · rintro (⟨i, sti, hsti, hik, hij, hde, hpd⟩ | ⟨-, -, hdir'⟩)
          · have hik' : i < j := by omega
            exact Or.inl ⟨i, sti, hsti, hik', hij, hde, hpd⟩
          · exact absurd hdir' hdir
    · -- node list of the self step
      intro ty
      rw [resolveSelf_node_update]
      simp only [hjn ty]
      constructor
      · rintro ⟨i, sti, hsti, hik, hij, hty, hnd⟩
        exact ⟨i, sti, hsti, by omega, hij, hty, hnd⟩
      · rintro ⟨i, sti, hsti, hik, hij, hty, hnd⟩
        exact ⟨i, sti, hsti, by omega, hij, hty, hnd⟩
    · rw [resolveSelf_child_update]
      split
      · next hcond =>
        exact nodup_append_single _ _ ndc hcond.2
      · exact ndc
    · rw [resolveSelf_parent_update]
      split
      · next hcond =>
        exact nodup_append_single _ _ ndp hcond.2
      · exact ndp
    · rw [resolveSelf_node_update]
      exact ndn
  · -- j ≠ k: the other-pass step
    rw [if_neg hjk] at hget
    refine ⟨(resolveOther { stk with dependants := Dk }
        { stj with dependants := Dj }).dependants, ?_, ?_, ?_, ?_, ?_, ?_, ?_⟩
    · rw [hget]
      rfl
    · intro d
      have hDc : (resolveOther { stk with dependants := Dk }
          { stj with dependants := Dj }).dependants.child =
          if stj.this_type_id ∈ stk.parent_dependancies_ids ∧
              dependantOf stk ∉ Dj.child then
            Dj.child ++ [dependantOf stk]
          else Dj.child := rfl
      rw [hDc]
      by_cases hcond : stj.this_type_id ∈ stk.parent_dependancies_ids
      · by_cases hmem0 : dependantOf stk ∈ Dj.child
        · rw [if_neg (fun hc => hc.2 hmem0)]
          simp only [hjc d]
          constructor
          · rintro (⟨i, sti, hsti, hik, hij, hde, hpd⟩ | ⟨hjlt, hde, hdir⟩)
            · exact Or.inl ⟨i, sti, hsti, by omega, hij, hde, hpd⟩
            · exact Or.inr ⟨by omega, hde, hdir⟩
          · rintro (⟨i, sti, hsti, hik, hij, hde, hpd⟩ | ⟨hjlt, hde, hdir⟩)
            · by_cases hik' : i = k
              · subst hik'
                have : sti = stk := Option.some.inj (hsti.symm.trans hsk)
                subst this
                rw [hde]
                exact (hjc _).mp hmem0
              · exact Or.inl ⟨i, sti, hsti, by omega, hij, hde, hpd⟩
            · exact Or.inr ⟨by omega, hde, hdir⟩
        · rw [if_pos ⟨hcond, hmem0⟩]
          simp only [List.mem_append, List.mem_singleton, hjc d]
          constructor
          · rintro ((⟨i, sti, hsti, hik, hij, hde, hpd⟩ | ⟨hjlt, hde, hdir⟩) | rfl)
            · exact Or.inl ⟨i, sti, hsti, by omega, hij, hde, hpd⟩
            · exact Or.inr ⟨by omega, hde, hdir⟩
            · exact Or.inl ⟨k, stk, hsk, Nat.lt_succ_self k,
                fun hkj => hjk hkj.symm, rfl, hcond⟩
          · rintro (⟨i, sti, hsti, hik, hij, hde, hpd⟩ | ⟨hjlt, hde, hdir⟩)
            · by_cases hik' : i = k
              · subst hik'
                have : sti = stk := Option.some.inj (hsti.symm.trans hsk)
                subst this
                exact Or.inr hde
              · exact Or.inl (Or.inl ⟨i, sti, hsti, by omega, hij, hde, hpd⟩)
            · exact Or.inl (Or.inr ⟨by omega, hde, hdir⟩)
      · rw [if_neg (fun hc => hcond hc.1)]
        simp only [hjc d]
        constructor
        · rintro (⟨i, sti, hsti, hik, hij, hde, hpd⟩ | ⟨hjlt, hde, hdir⟩)
          · exact Or.inl ⟨i, sti, hsti, by omega, hij, hde, hpd⟩
          · exact Or.inr ⟨by omega, hde, hdir⟩
        · rintro (⟨i, sti, hsti, hik, hij, hde, hpd⟩ | ⟨hjlt, hde, hdir⟩)
          · by_cases hik' : i = k
            · subst hik'
              have : sti = stk := Option.some.inj (hsti.symm.trans hsk)
              subst this
              exact absurd hpd hcond
            · exact Or.inl ⟨i, sti, hsti, by omega, hij, hde, hpd⟩
          · exact Or.inr ⟨by omega, hde, hdir⟩
    · intro d
      have hDp : (resolveOther { stk with dependants := Dk }
          { stj with dependants := Dj }).dependants.parent =
          if stj.this_type_id ∈ stk.child_dependancies_ids ∧
              dependantOf stk ∉ Dj.parent then
            Dj.parent ++ [dependantOf stk]
          else Dj.parent := rfl
      rw [hDp]
      by_cases hcond : stj.this_type_id ∈ stk.child_dependancies_ids
      · by_cases hmem0 : dependantOf stk ∈ Dj.parent
        · rw [if_neg (fun hc => hc.2 hmem0)]
          simp only [hjp d]
          constructor
          · rintro (⟨i, sti, hsti, hik, hij, hde, hpd⟩ | ⟨hjlt, hde, hdir⟩)
            · exact Or.inl ⟨i, sti, hsti, by omega, hij, hde, hpd⟩
            · exact Or.inr ⟨by omega, hde, hdir⟩
          · rintro (⟨i, sti, hsti, hik, hij, hde, hpd⟩ | ⟨hjlt, hde, hdir⟩)
            · by_cases hik' : i = k
              · subst hik'
                have : sti = stk := Option.some.inj (hsti.symm.trans hsk)
                subst this
                rw [hde]
                exact (hjp _).mp hmem0
              · exact Or.inl ⟨i, sti, hsti, by omega, hij, hde, hpd⟩
            · exact Or.inr ⟨by omega, hde, hdir⟩
        · rw [if_pos ⟨hcond, hmem0⟩]
          simp only [List.mem_append, List.mem_singleton, hjp d]
          constructor
          · rintro ((⟨i, sti, hsti, hik, hij, hde, hpd⟩ | ⟨hjlt, hde, hdir⟩) | rfl)
            · exact Or.inl ⟨i, sti, hsti, by omega, hij, hde, hpd⟩
            · exact Or.inr ⟨by omega, hde, hdir⟩
            · exact Or.inl ⟨k, stk, hsk, Nat.lt_succ_self k,
                fun hkj => hjk hkj.symm, rfl, hcond⟩
          · rintro (⟨i, sti, hsti, hik, hij, hde, hpd⟩ | ⟨hjlt, hde, hdir⟩)
            · by_cases hik' : i = k
              · subst hik'
                have : sti = stk := Option.some.inj (hsti.symm.trans hsk)
                subst this
                exact Or.inr hde
              · exact Or.inl (Or.inl ⟨i, sti, hsti, by omega, hij, hde, hpd⟩)
            · exact Or.inl (Or.inr ⟨by omega, hde, hdir⟩)
      · rw [if_neg (fun hc => hcond hc.1)]
        simp only [hjp d]
        constructor
        · rintro (⟨i, sti, hsti, hik, hij, hde, hpd⟩ | ⟨hjlt, hde, hdir⟩)
          · exact Or.inl ⟨i, sti, hsti, by omega, hij, hde, hpd⟩
          · exact Or.inr ⟨by omega, hde, hdir⟩
        · rintro (⟨i, sti, hsti, hik, hij, hde, hpd⟩ | ⟨hjlt, hde, hdir⟩)
          · by_cases hik' : i = k
            · subst hik'
              have : sti = stk := Option.some.inj (hsti.symm.trans hsk)
              subst this
              exact absurd hpd hcond
            · exact Or.inl ⟨i, sti, hsti, by omega, hij, hde, hpd⟩
          · exact Or.inr ⟨by omega, hde, hdir⟩
    · intro ty
      have hDn : (resolveOther { stk with dependants := Dk }
          { stj with dependants := Dj }).dependants.node =
          if stj.this_type_id ∈ stk.node_dependancies_ids ∧
              stk.this_type_id ∉ Dj.node then
            Dj.node ++ [stk.this_type_id]
          else Dj.node := rfl
      rw [hDn]
      by_cases hcond : stj.this_type_id ∈ stk.node_dependancies_ids
      · by_cases hmem0 : stk.this_type_id ∈ Dj.node
        · rw [if_neg (fun hc => hc.2 hmem0)]
          simp only [hjn ty]
          constructor
          · rintro ⟨i, sti, hsti, hik, hij, hty, hnd⟩
            exact ⟨i, sti, hsti, by omega, hij, hty, hnd⟩
          · rintro ⟨i, sti, hsti, hik, hij, hty, hnd⟩
            by_cases hik' : i = k
            · subst hik'
              have : sti = stk := Option.some.inj (hsti.symm.trans hsk)
              subst this
              rw [hty]
              exact (hjn _).mp hmem0
            · exact ⟨i, sti, hsti, by omega, hij, hty, hnd⟩
        · rw [if_pos ⟨hcond, hmem0⟩]
          simp only [List.mem_append, List.mem_singleton, hjn ty]
          constructor
          · rintro (⟨i, sti, hsti, hik, hij, hty, hnd⟩ | rfl)
            · exact ⟨i, sti, hsti, by omega, hij, hty, hnd⟩
            · exact ⟨k, stk, hsk, Nat.lt_succ_self k,
                fun hkj => hjk hkj.symm, rfl, hcond⟩
          · rintro ⟨i, sti, hsti, hik, hij, hty, hnd⟩
            by_cases hik' : i = k
            · subst hik'
              have : sti = stk := Option.some.inj (hsti.symm.trans hsk)
              subst this
              exact Or.inr hty
            · exact Or.inl ⟨i, sti, hsti, by omega, hij, hty, hnd⟩
      · rw [if_neg (fun hc => hcond hc.1)]
        simp only [hjn ty]
        constructor
        · rintro ⟨i, sti, hsti, hik, hij, hty, hnd⟩
          exact ⟨i, sti, hsti, by omega, hij, hty, hnd⟩
        · rintro ⟨i, sti, hsti, hik, hij, hty, hnd⟩
          by_cases hik' : i = k
          · subst hik'
            have : sti = stk := Option.some.inj (hsti.symm.trans hsk)
            subst this
            exact absurd hnd hcond
          · exact ⟨i, sti, hsti, by omega, hij, hty, hnd⟩
    · show (if stj.this_type_id ∈ stk.parent_dependancies_ids ∧
          dependantOf stk ∉ Dj.child then Dj.child ++ [dependantOf stk]
          else Dj.child).Nodup
      split
      · next hcond => exact nodup_append_single _ _ ndc hcond.2
      · exact ndc
    · show (if stj.this_type_id ∈ stk.child_dependancies_ids ∧
          dependantOf stk ∉ Dj.parent then Dj.parent ++ [dependantOf stk]
          else Dj.parent).Nodup
      split
      · next hcond => exact nodup_append_single _ _ ndp hcond.2
      · exact ndp
    · show (if stj.this_type_id ∈ stk.node_dependancies_ids ∧
          stk.this_type_id ∉ Dj.node then Dj.node ++ [stk.this_type_id]
          else Dj.node).Nodup
      split
      · next hcond => exact nodup_append_single _ _ ndn hcond.2
      · exact ndn

theorem resolve_dependants_resolved (states : List TypeErasedState)
    (hnodup : (states.map fun p => p.this_type_id).Nodup)
    (hempty : ∀ st ∈ states, st.dependants = ⟨[], [], []⟩) :
    ResolvedUpTo states (resolve_dependants states) states.length := by
  rw [resolve_dependants_eq_upTo]
  have hall : ∀ k, k ≤ states.length →
      ResolvedUpTo states (resolveUpTo states k) k := by
    intro k
    induction k with
    | zero => exact fun _ => resolvedUpTo_zero states hempty
    | succ m ih =>
      intro hm
      exact resolvedUpTo_succ states hnodup m (by omega) _ (ih (by omega))
  exact hall states.length le_rfl

theorem resolveOther_eq_self (c st : TypeErasedState)
    (h1 : st.this_type_id ∈ c.parent_dependancies_ids →
      dependantOf c ∈ st.dependants.child)
    (h2 : st.this_type_id ∈ c.child_dependancies_ids →
      dependantOf c ∈ st.dependants.parent)
    (h3 : st.this_type_id ∈ c.node_dependancies_ids →
      c.this_type_id ∈ st.dependants.node) :
    resolveOther c st = st := by
  have hc : (resolveOther c st).dependants.child = st.dependants.child := by
    rw [resolveOther_child]
    exact if_neg (fun hcond => hcond.2 (h1 hcond.1))
  have hp : (resolveOther c st).dependants.parent = st.dependants.parent := by
    rw [resolveOther_parent]
    exact if_neg (fun hcond => hcond.2 (h2 hcond.1))
  have hn : (resolveOther c st).dependants.node = st.dependants.node := by
    rw [resolveOther_node]
    exact if_neg (fun hcond => hcond.2 (h3 hcond.1))
  have hdeps : (resolveOther c st).dependants = st.dependants := by
    have hrec : (resolveOther c st).dependants =
        ⟨(resolveOther c st).dependants.parent,
         (resolveOther c st).dependants.child,
         (resolveOther c st).dependants.node⟩ := rfl
    rw [hrec, hc, hp, hn]
  rw [resolveOther_eq_update c st, hdeps]

theorem resolveSelf_eq_self (st : TypeErasedState)
    (h1 : st.pass_direction = PassDirection.ParentToChild →
      dependantOf st ∈ st.dependants.child)
    (h2 : st.pass_direction = PassDirection.ChildToParent →
      dependantOf st ∈ st.dependants.parent) :
    resolveSelf st = st := by
  have hc : (resolveSelf st).dependants.child = st.dependants.child := by
    rw [resolveSelf_child]
    exact if_neg (fun hcond => hcond.2 (h1 hcond.1))
  have hp : (resolveSelf st).dependants.parent = st.dependants.parent := by
    rw [resolveSelf_parent]
    exact if_neg (fun hcond => hcond.2 (h2 hcond.1))
  have hn : (resolveSelf st).dependants.node = st.dependants.node :=
    resolveSelf_node st
  have hdeps : (resolveSelf st).dependants = st.dependants := by
    have hrec : (resolveSelf st).dependants =
        ⟨(resolveSelf st).dependants.parent,
         (resolveSelf st).dependants.child,
         (resolveSelf st).dependants.node⟩ := rfl
    rw [hrec, hc, hp, hn]
  rw [resolveSelf_eq_update st, hdeps]

theorem foldl_resolveStep_id (R : List TypeErasedState)
    (h : ∀ i, resolveStep R i = R) :
    ∀ l : List Nat, l.foldl resolveStep R = R
  | [] => rfl
  | i :: l => by
    rw [List.foldl_cons, h i, foldl_resolveStep_id R h l]

theorem resolveStep_id_of_resolved (states : List TypeErasedState)
    (hnodup : (states.map fun p => p.this_type_id).Nodup)
    (hempty : ∀ st ∈ states, st.dependants = ⟨[], [], []⟩) :
    ∀ i, resolveStep (resolve_dependants states) i = resolve_dependants states := by
  intro k
  have hres := resolve_dependants_resolved states hnodup hempty
  have hlen : (resolve_dependants states).length = states.length := by
    rw [resolve_dependants_eq_upTo]
    exact resolveUpTo_length states states.length
  by_cases hk : k < states.length
  · obtain ⟨stk, hsk⟩ : ∃ stk, states.get? k = Option.some stk :=
      ⟨_, List.get?_eq_get hk⟩
    obtain ⟨Dk, hRk, -, -, -, -, -, -⟩ := hres k stk hsk
    have hstep : resolveStep (resolve_dependants states) k =
        mapWithIdx (fun j st => if j = k then resolveSelf st
          else resolveOther { stk with dependants := Dk } st) 0
          (resolve_dependants states) := by
      unfold resolveStep
      rw [hRk]
    rw [hstep]
    apply mapWithIdx_id
    intro j st hst
    rw [Nat.zero_add]
    have hjlen : j < states.length := by
      rcases List.get?_eq_some.mp hst with ⟨hj', -⟩
      rw [hlen] at hj'
      exact hj'
    obtain ⟨stj, hsj⟩ : ∃ stj, states.get? j = Option.some stj :=
      ⟨_, List.get?_eq_get hjlen⟩
    obtain ⟨Dj, hRj, hjc, hjp, hjn, -, -, -⟩ := hres j stj hsj
    have hst' : st = { stj with dependants := Dj } :=
      Option.some.inj (hst.symm.trans hRj)
    subst hst'
    by_cases hjk : j = k
    · subst hjk
      rw [if_pos rfl]
      apply resolveSelf_eq_self
      · intro hdir
        exact (hjc _).mpr (Or.inr ⟨hjlen, rfl, hdir⟩)
      · intro hdir
        exact (hjp _).mpr (Or.inr ⟨hjlen, rfl, hdir⟩)
    · rw [if_neg hjk]
      apply resolveOther_eq_self
      · intro hmem
        exact (hjc _).mpr (Or.inl ⟨k, stk, hsk, hk, fun hkj => hjk hkj.symm,
          rfl, hmem⟩)
      · intro hmem
        exact (hjp _).mpr (Or.inl ⟨k, stk, hsk, hk, fun hkj => hjk hkj.symm,
          rfl, hmem⟩)
      · intro hmem
        exact (hjn _).mpr ⟨k, stk, hsk, hk, fun hkj => hjk hkj.symm, rfl, hmem⟩
  · have hnone : (resolve_dependants states).get? k = Option.none := by
      rw [List.get?_eq_none]
      rw [hlen]
      omega
    unfold resolveStep
    rw [hnone]

/-- Claim C3: the resolved dependants graph inverts the declared dependency
sets exactly — pass A is a child dependant of pass B iff A declares a parent
dependency on B's type (plus the self edge when A is `ParentToChild`),
symmetrically for parent dependants and `ChildToParent`, and A's type id is a
node dependant of B iff A declares a same-node dependency on B's type; no
dependants list holds a duplicate, and resolving the already-resolved states
again changes nothing (idempotence, for every descriptor order). -/
theorem C3_dependants_graph_inversion (states : List TypeErasedState)
    (hnodup : (states.map fun p => p.this_type_id).Nodup)
    (hself : ∀ st ∈ states,
      st.this_type_id ∉ st.parent_dependancies_ids ∧
      st.this_type_id ∉ st.child_dependancies_ids ∧
      st.this_type_id ∉ st.node_dependancies_ids)
    (hempty : ∀ st ∈ states, st.dependants = ⟨[], [], []⟩) :
    (∀ j stj, states.get? j = Option.some stj →
      ∃ D : PassDependants,
        (resolve_dependants states).get? j =
          Option.some { stj with dependants := D } ∧
        (∀ d, d ∈ D.child ↔
          ((∃ i sti, states.get? i = Option.some sti ∧ d = dependantOf sti ∧
            stj.this_type_id ∈ sti.parent_dependancies_ids) ∨
          (d = dependantOf stj ∧
            stj.pass_direction = PassDirection.ParentToChild))) ∧
        (∀ d, d ∈ D.parent ↔
          ((∃ i sti, states.get? i = Option.some sti ∧ d = dependantOf sti ∧
            stj.this_type_id ∈ sti.child_dependancies_ids) ∨
          (d = dependantOf stj ∧
            stj.pass_direction = PassDirection.ChildToParent))) ∧
        (∀ ty, ty ∈ D.node ↔
          (∃ i sti, states.get? i = Option.some sti ∧ ty = sti.this_type_id ∧
            stj.this_type_id ∈ sti.node_dependancies_ids)) ∧
        D.child.Nodup ∧ D.parent.Nodup ∧ D.node.Nodup) ∧
    resolve_dependants (resolve_dependants states) = resolve_dependants states := by
  have hres := resolve_dependants_resolved states hnodup hempty
  constructor
  · intro j stj hj
    obtain ⟨D, hRj, hc, hp, hn, nc, np, nn⟩ := hres j stj hj
    have hstj : stj ∈ states := List.get?_mem hj
    refine ⟨D, hRj, ?_, ?_, ?_, nc, np, nn⟩
    · intro d
      rw [hc d]
      constructor
      · rintro (⟨i, sti, hsti, -, -, hde, hpd⟩ | ⟨-, hde, hdir⟩)
        · exact Or.inl ⟨i, sti, hsti, hde, hpd⟩
        · exact Or.inr ⟨hde, hdir⟩
      · rintro (⟨i, sti, hsti, hde, hpd⟩ | ⟨hde, hdir⟩)
        · have hilen : i < states.length := (List.get?_eq_some.mp hsti).1
          have hij : i ≠ j := by
            intro hij
            subst hij
            have : sti = stj := Option.some.inj (hsti.symm.trans hj)
            subst this
            exact (hself sti (List.get?_mem hsti)).1 hpd
          exact Or.inl ⟨i, sti, hsti, hilen, hij, hde, hpd⟩
        · have hjlen : j < states.length := (List.get?_eq_some.mp hj).1
          exact Or.inr ⟨hjlen, hde, hdir⟩
    · intro d
      rw [hp d]
      constructor
      · rintro (⟨i, sti, hsti, -, -, hde, hpd⟩ | ⟨-, hde, hdir⟩)
        · exact Or.inl ⟨i, sti, hsti, hde, hpd⟩
        · exact Or.inr ⟨hde, hdir⟩
      · rintro (⟨i, sti, hsti, hde, hpd⟩ | ⟨hde, hdir⟩)
        · have hilen : i < states.length := (List.get?_eq_some.mp hsti).1
          have hij : i ≠ j := by
            intro hij
            subst hij
            have : sti = stj := Option.some.inj (hsti.symm.trans hj)
            subst this
            exact (hself sti (List.get?_mem hsti)).2.1 hpd
          exact Or.inl ⟨i, sti, hsti, hilen, hij, hde, hpd⟩
        · have hjlen : j < states.length := (List.get?_eq_some.mp hj).1
          exact Or.inr ⟨hjlen, hde, hdir⟩
    · intro ty
      rw [hn ty]
      constructor
      · rintro ⟨i, sti, hsti, -, -, hty, hnd⟩
        exact ⟨i, sti, hsti, hty, hnd⟩
      · rintro ⟨i, sti, hsti, hty, hnd⟩
        have hilen : i < states.length := (List.get?_eq_some.mp hsti).1
        have hij : i ≠ j := by
          intro hij
          subst hij
          have : sti = stj := Option.some.inj (hsti.symm.trans hj)
          subst this
          exact (hself sti (List.get?_mem hsti)).2.2 hnd
        exact ⟨i, sti, hsti, hilen, hij, hty, hnd⟩
  · show resolve_dependants (resolve_dependants states) = resolve_dependants states
    unfold resolve_dependants
    exact foldl_resolveStep_id _
      (resolveStep_id_of_resolved states hnodup hempty) _

/-- Witness for C3 at two concrete passes: pass 0 (`ParentToChild`) declares
a parent dependency on type 1; after resolution pass 1's child dependants are
exactly pass 0, and resolving again changes nothing. -/
theorem C3_dependants_graph_inversion_witness :
    resolve_dependants (resolve_dependants
        [mkState 0 {1} ∅ ∅ .ParentToChild NodeMaskBuilder.ALL,
         mkState 1 ∅ ∅ ∅ .AnyOrder NodeMaskBuilder.ALL]) =
      resolve_dependants
        [mkState 0 {1} ∅ ∅ .ParentToChild NodeMaskBuilder.ALL,
         mkState 1 ∅ ∅ ∅ .AnyOrder NodeMaskBuilder.ALL] :=
  (C3_dependants_graph_inversion
      [mkState 0 {1} ∅ ∅ .ParentToChild NodeMaskBuilder.ALL,
       mkState 1 ∅ ∅ ∅ .AnyOrder NodeMaskBuilder.ALL]
      (by decide) (by decide) (by decide)).2

/-- Well-allocated dom: payloads and tree entries live below the entity
counter and exist together. -/
def Alloc (s : RealDom) : Prop :=
  (∀ n, (s.node_types n).isSome = true → n < s.next_id) ∧
  (∀ n, (s.tree.nodes n).isSome = true → n < s.next_id) ∧
  (∀ n, (s.node_types n).isSome = (s.tree.nodes n).isSome)

/-- Dirty state only grows: dirty pass sets are monotone and full accumulated
masks stay full. -/
def DirtyMono (s s2 : RealDom) : Prop :=
  (∀ d t, t ∈ ((s.dirty_nodes.passes_updated d).getD ∅) →
    t ∈ ((s2.dirty_nodes.passes_updated d).getD ∅)) ∧
  (∀ d, s.dirty_nodes.nodes_updated d = Option.some NodeMaskBuilder.ALL →
    s2.dirty_nodes.nodes_updated d = Option.some NodeMaskBuilder.ALL)

/-- Every node id in the given range is dirty for every registered pass and
carries the full accumulated mask. -/
def FullyDirty (s : RealDom) (a b : Nat) : Prop :=
  ∀ d, a ≤ d → d < b →
    (∀ p ∈ s.dirty_nodes.passes,
      p.this_type_id ∈ ((s.dirty_nodes.passes_updated d).getD ∅)) ∧
    s.dirty_nodes.nodes_updated d = Option.some NodeMaskBuilder.ALL

/-- Tree entries at or above the base counter only reference ids in the new
range. -/
def NewClosed (s0 s : RealDom) : Prop :=
  ∀ n tn, s0.next_id ≤ n → s.tree.nodes n = Option.some tn →
    n < s.next_id ∧ ∀ c ∈ tn.children, s0.next_id ≤ c ∧ c < s.next_id

theorem union_ALL_left (m : NodeMask) :
    NodeMaskBuilder.ALL.union m = NodeMaskBuilder.ALL := by
  obtain ⟨a, t, l⟩ := m
  cases a <;> rfl

theorem mark_dirty_mono (d : NodesDirty) (node : Nat) (mask : NodeMask) :
    (∀ n t, t ∈ ((d.passes_updated n).getD ∅) →
      t ∈ (((d.mark_dirty node mask).passes_updated n).getD ∅)) ∧
    (∀ n, d.nodes_updated n = Option.some NodeMaskBuilder.ALL →
      (d.mark_dirty node mask).nodes_updated n =
        Option.some NodeMaskBuilder.ALL) ∧
    (d.mark_dirty node mask).passes = d.passes := by
  refine ⟨?_, ?_, rfl⟩
  · intro n t ht
    by_cases hn : n = node
    · subst hn
      simp only [NodesDirty.mark_dirty, Function.update_same, Option.getD_some]
      exact Finset.mem_union_left _ ht
    · simp only [NodesDirty.mark_dirty, Function.update_noteq hn]
      exact ht
  · intro n hn
    by_cases h : n = node
    · subst h
      simp only [NodesDirty.mark_dirty, Function.update_same, hn]
      rw [union_ALL_left]
    · simp only [NodesDirty.mark_dirty, Function.update_noteq h]
      exact hn

theorem mark_child_changed_mono (d : NodesDirty) (node : Nat) :
    (∀ n t, t ∈ ((d.passes_updated n).getD ∅) →
      t ∈ (((d.mark_child_changed node).passes_updated n).getD ∅)) ∧
    (d.mark_child_changed node).nodes_updated = d.nodes_updated ∧
    (d.mark_child_changed node).passes = d.passes := by
  refine ⟨?_, rfl, rfl⟩
  intro n t ht
  by_cases hn : n = node
  · subst hn
    simp only [NodesDirty.mark_child_changed, Function.update_same,
      Option.getD_some]
    have hbase : ∀ (l : List TypeErasedState) (acc : Finset Nat),
        t ∈ acc → t ∈ l.foldl (fun hm pass => hm ∪ pass.child_dependancies_ids) acc := by
      intro l
      induction l with
      | nil => exact fun acc h => h
      | cons p rest ih =>
        intro acc h
        exact ih _ (Finset.mem_union_left _ h)
    exact hbase _ _ ht
  · simp only [NodesDirty.mark_child_changed, Function.update_noteq hn]
    exact ht

theorem mark_parent_mono (d : NodesDirty) (node : Nat) :
    (∀ n t, t ∈ ((d.passes_updated n).getD ∅) →
      t ∈ (((d.mark_parent_added_or_removed node).passes_updated n).getD ∅)) ∧
    (d.mark_parent_added_or_removed node).nodes_updated = d.nodes_updated ∧
    (d.mark_parent_added_or_removed node).passes = d.passes := by
  refine ⟨?_, rfl, rfl⟩
  intro n t ht
  by_cases hn : n = node
  · subst hn
    simp only [NodesDirty.mark_parent_added_or_removed, Function.update_same,
      Option.getD_some]
    have hbase : ∀ (l : List TypeErasedState) (acc : Finset Nat),
        t ∈ acc → t ∈ l.foldl (fun hm pass => hm ∪ pass.parent_dependancies_ids) acc := by
      intro l
      induction l with
      | nil => exact fun acc h => h
      | cons p rest ih =>
        intro acc h
        exact ih _ (Finset.mem_union_left _ h)
    exact hbase _ _ ht
  · simp only [NodesDirty.mark_parent_added_or_removed, Function.update_noteq hn]
    exact ht

theorem optionMapM_congr {α β : Type} (f g : α → Option β) :
    ∀ l : List α, (∀ a ∈ l, f a = g a) → l.mapM f = l.mapM g
  | [], _ => rfl
  | a :: l, h => by
    rw [List.mapM_cons, List.mapM_cons, h a (List.mem_cons_self a l),
      optionMapM_congr f g l fun x hx => h x (List.mem_cons_of_mem a hx)]

theorem optionMapM_forall {α β : Type} (f : α → Option β) :
    ∀ (l : List α) (r : List β), l.mapM f = Option.some r →
      ∀ a ∈ l, ∃ b, f a = Option.some b
  | [], _, _, a, ha => by simp at ha
  | x :: l, r, h, a, ha => by
    rw [List.mapM_cons] at h
    rcases hfx : f x with _ | b <;> rw [hfx] at h
    · simp at h
    · rcases hml : l.mapM f with _ | r' <;> rw [hml] at h
      · simp at h
      · rcases List.mem_cons.mp ha with rfl | ha'
        · exact ⟨b, hfx⟩
        · exact optionMapM_forall f l r' hml a ha'

theorem children_ids_congr (t t2 : DomTree) (id : Nat)
    (h : t2.nodes id = t.nodes id) : t2.children_ids id = t.children_ids id := by
  unfold DomTree.children_ids
  rw [h]

theorem extract_agree :
    ∀ (F : Nat) (s s2 : RealDom) (id : Nat),
      (∀ d, d ∈ DomTree.subtreeIds F s.tree id →
        s2.node_types d = s.node_types d ∧
        s2.tree.children_ids d = s.tree.children_ids d) →
      RealDom.extract F s2 id = RealDom.extract F s id
  | 0, _, _, _, _ => rfl
  | F + 1, s, s2, id, h => by
    have hid := h id (by
      unfold DomTree.subtreeIds
      exact List.mem_cons_self _ _)
    show RealDom.extract (F + 1) s2 id = RealDom.extract (F + 1) s id
    unfold RealDom.extract
    rw [hid.1]
    rcases hnt : s.node_types id with _ | nt
    · rfl
    · have hch : s2.tree.children_ids id = s.tree.children_ids id := hid.2
      rw [hch]
      have hmm : (s.tree.children_ids id).mapM (RealDom.extract F s2) =
          (s.tree.children_ids id).mapM (RealDom.extract F s) := by
        apply optionMapM_congr
        intro c hc
        apply extract_agree F s s2 c
        intro d hd
        apply h d
        unfold DomTree.subtreeIds
        refine List.mem_cons_of_mem _ ?_
        rw [List.mem_flatMap]
        exact ⟨c, hc, hd⟩
      rw [hmm]

theorem extract_subtree_bound :
    ∀ (F : Nat) (s : RealDom) (id : Nat) (t : PayloadTree),
      RealDom.extract F s id = Option.some t →
      (∀ n, (s.node_types n).isSome = true → n < s.next_id) →
      ∀ d, d ∈ DomTree.subtreeIds F s.tree id → d < s.next_id
  | 0, s, id, t, hex, _, d, hd => by simp [RealDom.extract] at hex
  | F + 1, s, id, t, hex, hb, d, hd => by
    unfold RealDom.extract at hex
    rcases hnt : s.node_types id with _ | nt <;> rw [hnt] at hex
    · simp at hex
    · rcases hmm : (s.tree.children_ids id).mapM (RealDom.extract F s)
        with _ | ts <;> rw [hmm] at hex
      · simp at hex
      · unfold DomTree.subtreeIds at hd
        rcases List.mem_cons.mp hd with rfl | hd'
        · exact hb d (by rw [hnt]; rfl)
        · rw [List.mem_flatMap] at hd'
          rcases hd' with ⟨c, hc, hdc⟩
          rcases optionMapM_forall _ _ _ hmm c hc with ⟨tc, htc⟩
          exact extract_subtree_bound F s c tc htc hb d hdc

theorem subtree_in_range (s0 s : RealDom) (hnc : NewClosed s0 s) :
    ∀ (F : Nat) (n : Nat), s0.next_id ≤ n → n < s.next_id →
      ∀ d, d ∈ DomTree.subtreeIds F s.tree n →
        s0.next_id ≤ d ∧ d < s.next_id
  | 0, n, _, _, d, hd => by simp [DomTree.subtreeIds] at hd
  | F + 1, n, hge, hlt, d, hd => by
    unfold DomTree.subtreeIds at hd
    rcases List.mem_cons.mp hd with rfl | hd'
    · exact ⟨hge, hlt⟩
    · rw [List.mem_flatMap] at hd'
      rcases hd' with ⟨c, hc, hdc⟩
      rcases htn : s.tree.nodes n with _ | tn
      · unfold DomTree.children_ids at hc
        rw [htn] at hc
        simp at hc
      · unfold DomTree.children_ids at hc
        rw [htn] at hc
        simp only [Option.map_some', Option.getD_some] at hc
        rcases (hnc n tn hge htn).2 c hc with ⟨hc1, hc2⟩
        exact subtree_in_range s0 s hnc F c hc1 hc2 d hdc

theorem create_node_spec (s : RealDom) (nt : NodeType) :
    (s.create_node nt).2 = s.next_id ∧
    (s.create_node nt).1.next_id = s.next_id + 1 ∧
    (s.create_node nt).1.node_types =
      Function.update s.node_types s.next_id (Option.some nt) ∧
    (s.create_node nt).1.tree.nodes =
      Function.update s.tree.nodes s.next_id
        (Option.some ⟨Option.none, []⟩) ∧
    (s.create_node nt).1.dirty_nodes.passes = s.dirty_nodes.passes ∧
    (∀ p ∈ s.dirty_nodes.passes,
      p.this_type_id ∈
        (((s.create_node nt).1.dirty_nodes.passes_updated s.next_id).getD ∅)) ∧
    ((s.create_node nt).1.dirty_nodes.nodes_updated s.next_id =
      Option.some NodeMaskBuilder.ALL) ∧
    (∀ n, n ≠ s.next_id →
      (s.create_node nt).1.dirty_nodes.passes_updated n =
        s.dirty_nodes.passes_updated n ∧
      (s.create_node nt).1.dirty_nodes.nodes_updated n =
        s.dirty_nodes.nodes_updated n) ∧
    (∀ n t, t ∈ ((s.dirty_nodes.passes_updated n).getD ∅) →
      t ∈ (((s.create_node nt).1.dirty_nodes.passes_updated n).getD ∅)) := by
  refine ⟨rfl, rfl, rfl, rfl, rfl, ?_, ?_, ?_, ?_⟩
  · intro p hp
    simp only [RealDom.create_node, NodesDirty.mark_dirty, Function.update_same,
      Option.getD_some, Finset.mem_union, List.mem_toFinset, List.mem_map]
    exact Or.inl (Or.inr ⟨p, hp, rfl⟩)
  · rcases h : s.dirty_nodes.nodes_updated s.next_id with _ | m
    · simp [RealDom.create_node, NodesDirty.mark_dirty, Function.update_same, h]
    · simp [RealDom.create_node, NodesDirty.mark_dirty, Function.update_same, h,
        union_ALL_right]
  · intro n hn
    constructor <;>
      simp [RealDom.create_node, NodesDirty.mark_dirty, Function.update_noteq hn]
  · intro n t ht
    by_cases hn : n = s.next_id
    · subst hn
      simp only [RealDom.create_node, NodesDirty.mark_dirty, Function.update_same,
        Option.getD_some, Finset.mem_union]
      exact Or.inl (Or.inl ht)
    · simp only [RealDom.create_node, NodesDirty.mark_dirty,
        Function.update_noteq hn]
      exact ht

theorem node_add_child_spec (s : RealDom) (p c : Nat) (tn cn : TreeNode)
    (hp : s.tree.nodes p = Option.some tn) (hc : s.tree.nodes c = Option.some cn)
    (hcpar : cn.parent = Option.none) (hpc : p ≠ c) :
    (NodeMut.add_child s p c).tree.nodes p =
      Option.some { tn with children := tn.children ++ [c] } ∧
    (NodeMut.add_child s p c).tree.nodes c =
      Option.some { cn with parent := Option.some p } ∧
    (∀ n, n ≠ p → n ≠ c →
      (NodeMut.add_child s p c).tree.nodes n = s.tree.nodes n) ∧
    (NodeMut.add_child s p c).node_types = s.node_types ∧
    (NodeMut.add_child s p c).next_id = s.next_id ∧
    (NodeMut.add_child s p c).dirty_nodes.passes = s.dirty_nodes.passes ∧
    (∀ n t, t ∈ ((s.dirty_nodes.passes_updated n).getD ∅) →
      t ∈ (((NodeMut.add_child s p c).dirty_nodes.passes_updated n).getD ∅)) ∧
    (NodeMut.add_child s p c).dirty_nodes.nodes_updated =
      s.dirty_nodes.nodes_updated := by
  have hdet : s.tree.detach c = s.tree := by
    unfold DomTree.detach
    simp only [hc, hcpar]
  have htree : (NodeMut.add_child s p c).tree.nodes =
      Function.update
        (Function.update s.tree.nodes p
          ((s.tree.nodes p).map fun pn =>
            { pn with children := pn.children ++ [c] })) c
        ((Function.update s.tree.nodes p
          ((s.tree.nodes p).map fun pn =>
            { pn with children := pn.children ++ [c] }) c).map fun cnn =>
          { cnn with parent := Option.some p }) := by
    show (s.tree.add_child p c).nodes = _
    unfold DomTree.add_child
    rw [hdet]
  refine ⟨?_, ?_, ?_, rfl, rfl, ?_, ?_, ?_⟩
  · rw [htree, Function.update_noteq hpc, Function.update_same, hp]
    rfl
  · rw [htree, Function.update_same, Function.update_noteq (fun h => hpc h.symm),
      hc]
    rfl
  · intro n hnp hnc
    rw [htree, Function.update_noteq hnc, Function.update_noteq hnp]
  · show ((s.dirty_nodes.mark_child_changed p).mark_parent_added_or_removed
        c).passes = s.dirty_nodes.passes
    rw [(mark_parent_mono _ c).2.2, (mark_child_changed_mono _ p).2.2]
  · intro n t ht
    exact (mark_parent_mono _ c).1 n t ((mark_child_changed_mono _ p).1 n t ht)
  · show ((s.dirty_nodes.mark_child_changed p).mark_parent_added_or_removed
        c).nodes_updated = s.dirty_nodes.nodes_updated
    rw [(mark_parent_mono _ c).2.1, (mark_child_changed_mono _ p).2.1]

/-- The conclusions of a successful `clone_node` call on `id` returning
`nid`: fresh allocation, untouched existing state, same registered passes,
monotone dirty state, full dirtiness of the whole new range, new tree entries
closed over the new range, a parentless clone root, and payload-shape
preservation. -/
def CloneConcl (s : RealDom) (id : Nat) (s' : RealDom) (nid : Nat) :
    Prop :=
  nid = s.next_id ∧ s.next_id < s'.next_id ∧ Alloc s' ∧
  (∀ n, n < s.next_id →
    s'.node_types n = s.node_types n ∧ s'.tree.nodes n = s.tree.nodes n) ∧
  s'.dirty_nodes.passes = s.dirty_nodes.passes ∧
  DirtyMono s s' ∧ FullyDirty s' s.next_id s'.next_id ∧
  NewClosed s s' ∧
  (∃ tn', s'.tree.nodes nid = Option.some tn' ∧ tn'.parent = Option.none) ∧
  (∀ F t, RealDom.extract F s id = Option.some t →
    RealDom.extract F s' nid = Option.some t)

/-- Invariant carried through the child-cloning fold of `clone_node`. -/
def FoldInv (s0 acc : RealDom) (nid : Nat) (tn : TreeNode) : Prop :=
  nid = s0.next_id ∧ nid < acc.next_id ∧ Alloc acc ∧
  (∀ n, n < s0.next_id →
    acc.node_types n = s0.node_types n ∧ acc.tree.nodes n = s0.tree.nodes n) ∧
  acc.dirty_nodes.passes = s0.dirty_nodes.passes ∧
  DirtyMono s0 acc ∧ FullyDirty acc s0.next_id acc.next_id ∧
  NewClosed s0 acc ∧
  acc.tree.nodes nid = Option.some tn ∧ tn.parent = Option.none

theorem dirtyMono_trans {s1 s2 s3 : RealDom} (h1 : DirtyMono s1 s2)
    (h2 : DirtyMono s2 s3) : DirtyMono s1 s3 :=
  ⟨fun d t ht => h2.1 d t (h1.1 d t ht), fun d h => h2.2 d (h1.2 d h)⟩

theorem cloneFold_spec (fuel : Nat)
    (IH : ∀ a id s' nid, RealDom.cloneAux fuel a id = Option.some (s', nid) →
      Alloc a → CloneConcl a id s' nid) :
    ∀ (ch : List Nat) (s0 acc s2 : RealDom) (nid : Nat) (tn : TreeNode),
      ch.foldlM (fun a c =>
        if a.tree.contains c then
          (RealDom.cloneAux fuel a c).bind fun p =>
            if p.1.tree.contains nid then
              Option.some (NodeMut.add_child p.1 nid p.2)
            else Option.none
        else Option.none) acc = Option.some s2 →
      Alloc s0 →
      FoldInv s0 acc nid tn →
      ∃ newIds : List Nat,
        acc.next_id ≤ s2.next_id ∧
        FoldInv s0 s2 nid { tn with children := tn.children ++ newIds } ∧
        (∀ n, n < acc.next_id → n ≠ nid →
          s2.node_types n = acc.node_types n ∧
          s2.tree.nodes n = acc.tree.nodes n) ∧
        DirtyMono acc s2 ∧
        s2.node_types nid = acc.node_types nid ∧
        (∀ F ts, ch.mapM (RealDom.extract F s0) = Option.some ts →
          newIds.mapM (RealDom.extract F s2) = Option.some ts)
  | [], s0, acc, s2, nid, tn, hfold, halloc0, inv => by
    rw [List.foldlM_nil] at hfold
    have hacc : acc = s2 := Option.some.inj hfold
    subst hacc
    refine ⟨[], le_rfl, ?_, fun n _ _ => ⟨rfl, rfl⟩,
      ⟨fun d t h => h, fun d h => h⟩, rfl, ?_⟩
    · rw [List.append_nil]
      exact inv
    · intro F ts h
      rw [List.mapM_nil] at h ⊢
      exact h
  | c :: ch', s0, acc, s2, nid, tn, hfold, halloc0, inv => by
    obtain ⟨hnid0, hnidlt, hallocA, hframeA, hpassA, hmonoA, hfdA, hncA,
      htnA, hparA⟩ := inv
    rw [List.foldlM_cons] at hfold
    by_cases hcont : acc.tree.contains c = true
    case neg =>
      rw [if_neg hcont] at hfold
      simp at hfold
    rw [if_pos hcont] at hfold
    rcases hclone : RealDom.cloneAux fuel acc c with _ | p <;>
      rw [hclone] at hfold
    · simp at hfold
    obtain ⟨s_in, c'⟩ := p
    simp only [Option.some_bind] at hfold
    by_cases hcont2 : s_in.tree.contains nid = true
    case neg =>
      rw [if_neg hcont2] at hfold
      simp at hfold
    rw [if_pos hcont2] at hfold
    obtain ⟨hc'eq, hnextlt, halloc_in, hframe_in, hpass_in, hmono_in, hfd_in,
      hnc_in, ⟨tn', htn', hpar'⟩, hext_in⟩ := IH acc c s_in c' hclone hallocA
    have hnid_in : s_in.tree.nodes nid = Option.some tn := by
      rw [(hframe_in nid hnidlt).2]
      exact htnA
    have hnec' : nid ≠ c' := by omega
    obtain ⟨hACp, hACc, hACo, hACnt, hACnxt, hACpass, hACdirty, hACnu⟩ :=
      node_add_child_spec s_in nid c' tn tn' hnid_in htn' hpar' hnec'
    have hc'lt : c' < s_in.next_id := by omega
    have hs0acc : s0.next_id < acc.next_id := by omega
    -- the invariant at the state after attaching the cloned child
    have hinv'' : FoldInv s0 (NodeMut.add_child s_in nid c') nid
        { tn with children := tn.children ++ [c'] } := by
      refine ⟨hnid0, by omega, ?_, ?_, ?_, ?_, ?_, ?_, hACp, hparA⟩
      · refine ⟨?_, ?_, ?_⟩
        · intro n h
          rw [hACnt] at h
          rw [hACnxt]
          exact halloc_in.1 n h
        · intro n h
          rw [hACnxt]
          by_cases h1 : n = nid
          · omega
          · by_cases h2 : n = c'
            · omega
            · rw [(hACo n h1 h2)] at h
              exact halloc_in.2.1 n h
        · intro n
          rw [hACnt]
          by_cases h1 : n = nid
          · subst h1
            rw [hACp]
            have : (s_in.tree.nodes n).isSome = true := by rw [hnid_in]; rfl
            rw [← halloc_in.2.2 n] at this
            rw [this]
            rfl
          · by_cases h2 : n = c'
            · subst h2
              rw [hACc]
              have : (s_in.tree.nodes n).isSome = true := by rw [htn']; rfl
              rw [← halloc_in.2.2 n] at this
              rw [this]
              rfl
            · rw [hACo n h1 h2]
              exact halloc_in.2.2 n
      · intro n hn
        have h1 : n ≠ nid := by omega
        have h2 : n ≠ c' := by omega
        have hacc : n < acc.next_id := by omega
        refine ⟨?_, ?_⟩
        · rw [hACnt, (hframe_in n hacc).1, (hframeA n hn).1]
        · rw [hACo n h1 h2, (hframe_in n hacc).2, (hframeA n hn).2]
      · rw [hACpass, hpass_in, hpassA]
      · refine dirtyMono_trans (dirtyMono_trans hmonoA hmono_in) ?_
        exact ⟨hACdirty, fun d h => by rw [hACnu]; exact h⟩
      · intro d hd1 hd2
        rw [hACnxt] at hd2
        have hpasses : (NodeMut.add_child s_in nid c').dirty_nodes.passes =
            acc.dirty_nodes.passes := by rw [hACpass, hpass_in]
        by_cases hdacc : d < acc.next_id
        · obtain ⟨hp1, hp2⟩ := hfdA d hd1 hdacc
          refine ⟨?_, ?_⟩
          · intro p hp
            rw [hpasses] at hp
            exact hACdirty d _ (hmono_in.1 d _ (hp1 p hp))
          · rw [hACnu]
            exact hmono_in.2 d hp2
        · obtain ⟨hp1, hp2⟩ := hfd_in d (by omega) hd2
          refine ⟨?_, ?_⟩
          · intro p hp
            rw [hpasses, ← hpass_in] at hp
            exact hACdirty d _ (hp1 p hp)
          · rw [hACnu]
            exact hp2
      · intro n tnx hn hentry
        rw [hACnxt]
        by_cases h1 : n = nid
        · subst h1
          rw [hACp] at hentry
          cases Option.some.inj hentry
          refine ⟨by omega, ?_⟩
          intro x hx
          rcases List.mem_append.mp hx with hx' | hx'
          · rcases (hncA n tn hn htnA).2 x hx' with ⟨hx1, hx2⟩
            exact ⟨hx1, by omega⟩
          · rw [List.mem_singleton] at hx'
            subst hx'
            exact ⟨by omega, by omega⟩
        · by_cases h2 : n = c'
          · subst h2
            rw [hACc] at hentry
            cases Option.some.inj hentry
            refine ⟨by omega, ?_⟩
            intro x hx
            rcases (hnc_in n tn' (by omega) htn').2 x hx with ⟨hx1, hx2⟩
            exact ⟨by omega, hx2⟩
          · rw [hACo n h1 h2] at hentry
            by_cases hacc : n < acc.next_id
            · rw [(hframe_in n hacc).2] at hentry
              rcases hncA n tnx hn hentry with ⟨hb, hch⟩
              refine ⟨by omega, ?_⟩
              intro x hx
              rcases hch x hx with ⟨hx1, hx2⟩
              exact ⟨hx1, by omega⟩
            · rcases hnc_in n tnx (by omega) hentry with ⟨hb, hch⟩
              refine ⟨hb, ?_⟩
              intro x hx
              rcases hch x hx with ⟨hx1, hx2⟩
              exact ⟨by omega, hx2⟩
    have hncacc : NewClosed acc (NodeMut.add_child s_in nid c') := by
      intro n tnx hn hentry
      rw [hACnxt]
      have h1 : n ≠ nid := by omega
      by_cases h2 : n = c'
      · subst h2
        rw [hACc] at hentry
        cases Option.some.inj hentry
        refine ⟨by omega, ?_⟩
        intro x hx
        exact (hnc_in n tn' (by omega) htn').2 x hx
      · rw [hACo n h1 h2] at hentry
        exact hnc_in n tnx hn hentry
    obtain ⟨newIds', hle', hinv2, hframeX', hmono2, hnt2, hext2⟩ :=
      cloneFold_spec fuel IH ch' s0 (NodeMut.add_child s_in nid c') s2 nid
        { tn with children := tn.children ++ [c'] } hfold halloc0 hinv''
    refine ⟨c' :: newIds', by omega, ?_, ?_, ?_, ?_, ?_⟩
    · have heq : ({ { tn with children := tn.children ++ [c'] } with
          children := (tn.children ++ [c']) ++ newIds' } : TreeNode) =
        { tn with children := tn.children ++ (c' :: newIds') } := by
        rw [List.append_assoc, List.singleton_append]
      rw [← heq]
      exact hinv2
    · intro n hn hne
      have hn'' : n < (NodeMut.add_child s_in nid c').next_id := by
        rw [hACnxt]; omega
      have h2 : n ≠ c' := by omega
      obtain ⟨ha, hb⟩ := hframeX' n hn'' hne
      refine ⟨?_, ?_⟩
      · rw [ha, hACnt, (hframe_in n hn).1]
      · rw [hb, hACo n hne h2, (hframe_in n hn).2]
    · refine dirtyMono_trans (dirtyMono_trans hmono_in
        ⟨hACdirty, fun d h => by rw [hACnu]; exact h⟩) hmono2
    · rw [hnt2, hACnt, (hframe_in nid hnidlt).1]
    · intro F ts hch
      rw [List.mapM_cons] at hch
      rcases htc : RealDom.extract F s0 c with _ | tc <;> rw [htc] at hch
      · simp at hch
      rcases hts' : ch'.mapM (RealDom.extract F s0) with _ | ts' <;>
        rw [hts'] at hch
      · simp at hch
      have hts : tc :: ts' = ts := Option.some.inj hch
      subst hts
      -- the head child extracts to the same shape in the accumulator
      have htc_acc : RealDom.extract F acc c = Option.some tc := by
        rw [extract_agree F s0 acc c ?_]
        · exact htc
        · intro d hd
          have hdlt : d < s0.next_id :=
            extract_subtree_bound F s0 c tc htc halloc0.1 d hd
          refine ⟨(hframeA d hdlt).1, ?_⟩
          exact children_ids_congr s0.tree acc.tree d (hframeA d hdlt).2
      have h_in : RealDom.extract F s_in c' = Option.some tc :=
        hext_in F tc htc_acc
      -- attaching the clone to its new parent does not change its subtree
      have h'' : RealDom.extract F (NodeMut.add_child s_in nid c') c' =
          Option.some tc := by
        rw [extract_agree F s_in (NodeMut.add_child s_in nid c') c' ?_]
        · exact h_in
        · intro d hd
          have hdr := subtree_in_range acc s_in hnc_in F c' (by omega)
            hc'lt d hd
          have hd1 : d ≠ nid := by omega
          refine ⟨by rw [hACnt], ?_⟩
          by_cases hd2 : d = c'
          · subst hd2
            unfold DomTree.children_ids
            rw [hACc, htn']
            rfl
          · unfold DomTree.children_ids
            rw [hACo d hd1 hd2]
      -- and the remaining fold steps do not touch it either
      have hfinal : RealDom.extract F s2 c' = Option.some tc := by
        rw [extract_agree F (NodeMut.add_child s_in nid c') s2 c' ?_]
        · exact h''
        · intro d hd
          have hdr := subtree_in_range acc (NodeMut.add_child s_in nid c')
            hncacc F c' (by omega) (by rw [hACnxt]; omega) d hd
          rw [hACnxt] at hdr
          have hd1 : d ≠ nid := by omega
          have hdlt : d < (NodeMut.add_child s_in nid c').next_id := by
            rw [hACnxt]; omega
          obtain ⟨ha, hb⟩ := hframeX' d hdlt hd1
          exact ⟨ha, children_ids_congr _ _ d hb⟩
      rw [List.mapM_cons, hfinal, hext2 F ts' hts']
      rfl

theorem cloneAux_spec :
    ∀ (fuel : Nat) (s : RealDom) (id : Nat) (s2 : RealDom) (nid : Nat),
      RealDom.cloneAux fuel s id = Option.some (s2, nid) →
      Alloc s → CloneConcl s id s2 nid
  | 0, s, id, s2, nid, h, _ => by simp [RealDom.cloneAux] at h
  | fuel + 1, s, id, sF, nid, h, halloc => by
    rcases hnt : s.node_types id with _ | new_node
    · unfold RealDom.cloneAux at h
      rw [hnt] at h
      simp at h
    unfold RealDom.cloneAux at h
    rw [hnt] at h
    have h2 :
        (match ((s.create_node new_node).1.tree.children_ids id).foldlM
            (fun acc c =>
              if acc.tree.contains c then
                (RealDom.cloneAux fuel acc c).bind fun p =>
                  if p.1.tree.contains (s.create_node new_node).2 then
                    Option.some
                      (NodeMut.add_child p.1 (s.create_node new_node).2 p.2)
                  else Option.none
              else Option.none) (s.create_node new_node).1 with
          | Option.none => (Option.none : Option (RealDom × Nat))
          | Option.some s2 => Option.some (s2, (s.create_node new_node).2)) =
          Option.some (sF, nid) := h
    rcases hfold : ((s.create_node new_node).1.tree.children_ids id).foldlM
        (fun acc c =>
          if acc.tree.contains c then
            (RealDom.cloneAux fuel acc c).bind fun p =>
              if p.1.tree.contains (s.create_node new_node).2 then
                Option.some
                  (NodeMut.add_child p.1 (s.create_node new_node).2 p.2)
              else Option.none
          else Option.none) (s.create_node new_node).1 with _ | s2 <;>
      rw [hfold] at h2
    · simp at h2
    have hpair : sF = s2 ∧ nid = (s.create_node new_node).2 := by
      have := Option.some.inj h2
      exact ⟨(Prod.mk.injEq _ _ _ _ ▸ this.symm).1, (Prod.mk.injEq _ _ _ _ ▸ this.symm).2⟩
    obtain ⟨rfl, rfl⟩ := hpair
    obtain ⟨hcnid, hcnext, hcnt, hctree, hcpass, hcfd1, hcfd2, hcframe,
      hcmono⟩ := create_node_spec s new_node
    have hidlt : id < s.next_id := halloc.1 id (by rw [hnt]; rfl)
    -- the invariant holds right after creating the clone root
    have hinv : FoldInv s (s.create_node new_node).1 (s.create_node new_node).2
        ⟨Option.none, []⟩ := by
      refine ⟨hcnid, by rw [hcnid, hcnext]; omega, ?_, ?_, hcpass, ?_, ?_, ?_,
        ?_, rfl⟩
      · refine ⟨?_, ?_, ?_⟩
        · intro n hsome
          rw [hcnt] at hsome
          rw [hcnext]
          by_cases h0 : n = s.next_id
          · omega
          · rw [Function.update_noteq h0] at hsome
            have := halloc.1 n hsome
            omega
        · intro n hsome
          rw [hctree] at hsome
          rw [hcnext]
          by_cases h0 : n = s.next_id
          · omega
          · rw [Function.update_noteq h0] at hsome
            have := halloc.2.1 n hsome
            omega
        · intro n
          rw [hcnt, hctree]
          by_cases h0 : n = s.next_id
          · subst h0
            rw [Function.update_same, Function.update_same]
            rfl
          · rw [Function.update_noteq h0, Function.update_noteq h0]
            exact halloc.2.2 n
      · intro n hn
        have h0 : n ≠ s.next_id := by omega
        rw [hcnt, hctree, Function.update_noteq h0, Function.update_noteq h0]
        exact ⟨rfl, rfl⟩
      · refine ⟨hcmono, ?_⟩
        intro d hd
        by_cases h0 : d = s.next_id
        · subst h0
          exact hcfd2
        · rw [(hcframe d h0).2]
          exact hd
      · intro d hd1 hd2
        rw [hcnext] at hd2
        have h0 : d = s.next_id := by omega
        subst h0
        refine ⟨?_, hcfd2⟩
        intro p hp
        rw [hcpass] at hp
        exact hcfd1 p hp
      · intro n tn hge hentry
        rw [hctree] at hentry
        rw [hcnext]
        by_cases h0 : n = s.next_id
        · subst h0
          rw [Function.update_same] at hentry
          cases Option.some.inj hentry
          refine ⟨by omega, ?_⟩
          intro c hc
          simp at hc
        · rw [Function.update_noteq h0] at hentry
          have := halloc.2.1 n (by rw [hentry]; rfl)
          omega
      · rw [hctree, hcnid, Function.update_same]
    obtain ⟨newIds, hle, hinv2, hframe2, hmono2, hnt2, hext2⟩ :=
      cloneFold_spec fuel
        (fun a i s2 n h2 ha => cloneAux_spec fuel a i s2 n h2 ha)
        ((s.create_node new_node).1.tree.children_ids id) s
        (s.create_node new_node).1 sF (s.create_node new_node).2
        ⟨Option.none, []⟩ hfold halloc hinv
    obtain ⟨i1, i2, i3, i4, i5, i6, i7, i8, i9, i10⟩ := hinv2
    have hch' : (s.create_node new_node).1.tree.children_ids id =
        s.tree.children_ids id := by
      apply children_ids_congr
      rw [hctree, Function.update_noteq (by omega : id ≠ s.next_id)]
    refine ⟨i1, by omega, i3, i4, i5, i6, i7, i8, ⟨_, i9, i10⟩, ?_⟩
    intro F t hex
    rcases F with _ | F'
    · simp [RealDom.extract] at hex
    unfold RealDom.extract at hex
    rw [hnt] at hex
    rcases hmm : (s.tree.children_ids id).mapM (RealDom.extract F' s)
        with _ | ts <;> rw [hmm] at hex
    · simp at hex
    have ht : t = PayloadTree.node new_node ts :=
      (Option.some.inj hex).symm
    subst ht
    have hs2nt : sF.node_types (s.create_node new_node).2 =
        Option.some new_node := by
      rw [hnt2, hcnt, hcnid, Function.update_same]
    have hs2ch : sF.tree.children_ids (s.create_node new_node).2 = newIds := by
      unfold DomTree.children_ids
      rw [i9]
      rfl
    show RealDom.extract (F' + 1) sF (s.create_node new_node).2 = _
    unfold RealDom.extract
    rw [hs2nt, hs2ch, hext2 F' ts (by rw [hch']; exact hmm)]
    rfl

/-- Claim C7: for every existing node whose subtree extracts to a payload
shape, `clone_node` returns the id of a new subtree extracting to the same
shape (same ordered children at every position, equal payload at every
corresponding position, recursively); every id of the clone subtree differs
from every id of the source subtree; the registered pass list is unchanged;
and every node of the clone subtree is dirty for all registered passes with
the full accumulated mask. -/
theorem C7_clone_node_deep_copy (fuel F : Nat) (s s2 : RealDom)
    (id nid : Nat) (t : PayloadTree) (halloc : Alloc s)
    (hclone : RealDom.cloneAux fuel s id = Option.some (s2, nid))
    (hex : RealDom.extract F s id = Option.some t) :
    nid = s.next_id ∧
    RealDom.extract F s2 nid = Option.some t ∧
    (∀ d ∈ DomTree.subtreeIds F s2.tree nid,
      ∀ e ∈ DomTree.subtreeIds F s.tree id, d ≠ e) ∧
    s2.dirty_nodes.passes = s.dirty_nodes.passes ∧
    (∀ d ∈ DomTree.subtreeIds F s2.tree nid,
      (∀ p ∈ s.dirty_nodes.passes,
        p.this_type_id ∈ ((s2.dirty_nodes.passes_updated d).getD ∅)) ∧
      s2.dirty_nodes.nodes_updated d = Option.some NodeMaskBuilder.ALL) := by
  obtain ⟨h1, h2, h3, h4, h5, h6, h7, h8, h9, h10⟩ :=
    cloneAux_spec fuel s id s2 nid hclone halloc
  have hrange : ∀ d ∈ DomTree.subtreeIds F s2.tree nid,
      s.next_id ≤ d ∧ d < s2.next_id := by
    intro d hd
    exact subtree_in_range s s2 h8 F nid (by omega) (by omega) d hd
  refine ⟨h1, h10 F t hex, ?_, h5, ?_⟩
  · intro d hd e he
    have hdge := (hrange d hd).1
    have helt := extract_subtree_bound F s id t hex halloc.1 e he
    omega
  · intro d hd
    obtain ⟨hdge, hdlt⟩ := hrange d hd
    obtain ⟨hp1, hp2⟩ := h7 d hdge hdlt
    refine ⟨?_, hp2⟩
    intro p hp
    rw [← h5] at hp
    exact hp1 p hp

/-- A concrete clone call instantiating the deep-copy theorem: cloning the
root of a freshly created dom with no registered passes. -/
def cloneDemo : RealDom × Nat :=
  (RealDom.cloneAux 1 (RealDom.new []) 0).getD (RealDom.new [], 0)

/-- The payload shape of the root of a freshly created dom. -/
def cloneDemoT : PayloadTree :=
  (RealDom.extract 1 (RealDom.new []) 0).getD
    (PayloadTree.node NodeType.Placeholder [])

theorem alloc_new_nil : Alloc (RealDom.new []) := by
  have hnt : (RealDom.new []).node_types =
      Function.update (fun _ => Option.none) 0
        (Option.some (NodeType.Element ⟨"Root", [], ∅⟩)) := rfl
  have htr : (RealDom.new []).tree.nodes =
      Function.update (fun _ => Option.none) 0
        (Option.some ⟨Option.none, []⟩) := rfl
  refine ⟨?_, ?_, ?_⟩
  · intro n h
    rw [hnt] at h
    by_cases h0 : n = 0
    · subst h0
      show (0 : Nat) < 1
      omega
    · rw [Function.update_noteq h0] at h
      simp at h
  · intro n h
    rw [htr] at h
    by_cases h0 : n = 0
    · subst h0
      show (0 : Nat) < 1
      omega
    · rw [Function.update_noteq h0] at h
      simp at h
  · intro n
    rw [hnt, htr]
    by_cases h0 : n = 0
    · subst h0
      rw [Function.update_same, Function.update_same]
      rfl
    · rw [Function.update_noteq h0, Function.update_noteq h0]
      rfl

theorem C7_clone_node_deep_copy_witness :
    Alloc (RealDom.new []) ∧
    RealDom.cloneAux 1 (RealDom.new []) 0 =
      Option.some (cloneDemo.1, cloneDemo.2) ∧
    RealDom.extract 1 (RealDom.new []) 0 = Option.some cloneDemoT ∧
    (cloneDemo.2 = (RealDom.new []).next_id ∧
     RealDom.extract 1 cloneDemo.1 cloneDemo.2 = Option.some cloneDemoT ∧
     (∀ d ∈ DomTree.subtreeIds 1 cloneDemo.1.tree cloneDemo.2,
       ∀ e ∈ DomTree.subtreeIds 1 (RealDom.new []).tree 0, d ≠ e) ∧
     cloneDemo.1.dirty_nodes.passes = (RealDom.new []).dirty_nodes.passes ∧
     (∀ d ∈ DomTree.subtreeIds 1 cloneDemo.1.tree cloneDemo.2,
       (∀ p ∈ (RealDom.new []).dirty_nodes.passes,
         p.this_type_id ∈ ((cloneDemo.1.dirty_nodes.passes_updated d).getD ∅)) ∧
       cloneDemo.1.dirty_nodes.nodes_updated d =
         Option.some NodeMaskBuilder.ALL)) :=
  ⟨alloc_new_nil, rfl, rfl,
    C7_clone_node_deep_copy 1 1 (RealDom.new []) cloneDemo.1 0 cloneDemo.2
      cloneDemoT alloc_new_nil rfl rfl⟩

/-- The reverse-index consistency property claimed by the spec: a node id is
registered under an event in the reverse index exactly when it is an existing
element node whose listener set contains the event. -/
def listenersConsistent (s : RealDom) : Prop :=
  ∀ (e : EventName) (n : Nat),
    n ∈ s.get_listeners e ↔
      ∃ el, s.node_types n = Option.some (NodeType.Element el) ∧
        e ∈ el.listeners

/-- Removal only shrinks the tree, the payload store and the reverse
index. -/
def RemShrink (s s2 : RealDom) : Prop :=
  (∀ d, (s2.tree.nodes d).isSome = true → (s.tree.nodes d).isSome = true) ∧
  (∀ d, (s2.node_types d).isSome = true → (s.node_types d).isSome = true) ∧
  (∀ e d, d ∈ s2.get_listeners e → d ∈ s.get_listeners e)

/-- Surviving tree entries come from the start state, and children only
disappear from a surviving entry by being fully deleted. -/
def ChildDrop (s s2 : RealDom) : Prop :=
  ∀ d tn2, s2.tree.nodes d = Option.some tn2 →
    ∃ tn, s.tree.nodes d = Option.some tn ∧
      (∀ c ∈ tn2.children, c ∈ tn.children) ∧
      (∀ c ∈ tn.children, c ∈ tn2.children ∨
        (s2.tree.nodes c = Option.none ∧ s2.node_types c = Option.none))

/-- A node deleted by removal has all of its start-state children fully
deleted as well. -/
def DeletedClosed (s s2 : RealDom) : Prop :=
  ∀ d tn, s.tree.nodes d = Option.some tn → s2.tree.nodes d = Option.none →
    ∀ c ∈ tn.children, s2.tree.nodes c = Option.none ∧
      s2.node_types c = Option.none

/-- The composable part of the removal postcondition. -/
def RemInv (s s2 : RealDom) : Prop :=
  RemShrink s s2 ∧ ChildDrop s s2 ∧ DeletedClosed s s2

/-- Payloads are either untouched or deleted by removal. -/
def PayloadSameOrNone (s s2 : RealDom) : Prop :=
  ∀ d, s2.node_types d = s.node_types d ∨ s2.node_types d = Option.none

theorem psn_trans {s1 s2 s3 : RealDom} (h1 : PayloadSameOrNone s1 s2)
    (h2 : PayloadSameOrNone s2 s3) : PayloadSameOrNone s1 s3 := by
  intro d
  rcases h2 d with h | h
  · rcases h1 d with g | g
    · exact Or.inl (h.trans g)
    · exact Or.inr (h.trans g)
  · exact Or.inr h

theorem shrink_tree_none {s s2 : RealDom} (h : RemInv s s2) (d : Nat)
    (hn : s.tree.nodes d = Option.none) : s2.tree.nodes d = Option.none := by
  rcases hv : s2.tree.nodes d with _ | v
  · rfl
  · have := h.1.1 d (by rw [hv]; rfl)
    rw [hn] at this
    simp at this

theorem shrink_payload_none {s s2 : RealDom} (h : RemInv s s2) (d : Nat)
    (hn : s.node_types d = Option.none) :
    s2.node_types d = Option.none := by
  rcases hv : s2.node_types d with _ | v
  · rfl
  · have := h.1.2.1 d (by rw [hv]; rfl)
    rw [hn] at this
    simp at this

theorem remInv_of_fields (s s2 : RealDom) (ht : s2.tree = s.tree)
    (hp : ∀ d, (s2.node_types d).isSome = true →
      (s.node_types d).isSome = true)
    (hi : ∀ e d, d ∈ s2.get_listeners e → d ∈ s.get_listeners e) :
    RemInv s s2 := by
  refine ⟨⟨?_, hp, hi⟩, ?_, ?_⟩
  · intro d h
    rw [ht] at h
    exact h
  · intro d tn2 h
    rw [ht] at h
    exact ⟨tn2, h, fun c hc => hc, fun c hc => Or.inl hc⟩
  · intro d tn hs hdel
    rw [ht, hs] at hdel
    simp at hdel

theorem remInv_refl (s : RealDom) : RemInv s s :=
  remInv_of_fields s s rfl (fun _ h => h) (fun _ _ h => h)

theorem remInv_trans {s1 s2 s3 : RealDom} (h1 : RemInv s1 s2)
    (h2 : RemInv s2 s3) : RemInv s1 s3 := by
  refine ⟨⟨fun d h => h1.1.1 d (h2.1.1 d h), fun d h => h1.1.2.1 d (h2.1.2.1 d h),
    fun e d h => h1.1.2.2 e d (h2.1.2.2 e d h)⟩, ?_, ?_⟩
  · intro d tn3 h3
    obtain ⟨tn2, h2e, sub32, drop32⟩ := h2.2.1 d tn3 h3
    obtain ⟨tn1, h1e, sub21, drop21⟩ := h1.2.1 d tn2 h2e
    refine ⟨tn1, h1e, fun c hc => sub21 c (sub32 c hc), ?_⟩
    intro c hc
    rcases drop21 c hc with hin | ⟨hd1, hd2⟩
    · rcases drop32 c hin with hin' | hdel
      · exact Or.inl hin'
      · exact Or.inr hdel
    · exact Or.inr ⟨shrink_tree_none h2 c hd1, shrink_payload_none h2 c hd2⟩
  · intro d tn1 h1e hdel3
    rcases h2e : s2.tree.nodes d with _ | tn2
    · intro c hc
      obtain ⟨hd1, hd2⟩ := h1.2.2 d tn1 h1e h2e c hc
      exact ⟨shrink_tree_none h2 c hd1, shrink_payload_none h2 c hd2⟩
    · intro c hc
      obtain ⟨tn1', h1e', _, drop⟩ := h1.2.1 d tn2 h2e
      rw [h1e] at h1e'
      cases Option.some.inj h1e'
      rcases drop c hc with hin | ⟨hd1, hd2⟩
      · exact h2.2.2 d tn2 h2e hdel3 c hin
      · exact ⟨shrink_tree_none h2 c hd1, shrink_payload_none h2 c hd2⟩

theorem mem_map_erase_getD (o : Option (Finset Nat)) (d n : Nat) :
    (d ∈ ((o.map (fun hs => hs.erase n)).getD ∅)) ↔
      d ∈ (o.getD ∅) ∧ d ≠ n := by
  rcases o with _ | hs
  · simp
  · simp [Finset.mem_erase, and_comm]

theorem add_event_listener_cons (s : RealDom) (id : Nat) (ev : EventName)
    (s2 : RealDom)
    (h : NodeMut.add_event_listener s id ev = Option.some s2)
    (hcons : listenersConsistent s) : listenersConsistent s2 := by
  unfold NodeMut.add_event_listener at h
  rcases hnt : s.node_types id with _ | nt <;> rw [hnt] at h
  · simp at h
  rcases nt with el | txt | _
  · have h2 : Option.some { s with
        dirty_nodes := s.dirty_nodes.mark_dirty id NodeMaskBuilder.withListeners
        node_types := Function.update s.node_types id
          (Option.some (NodeType.Element
            { el with listeners := Insert.insert ev el.listeners }))
        nodes_listening := Function.update s.nodes_listening ev
          (Option.some (Insert.insert id ((s.nodes_listening ev).getD ∅))) } =
        Option.some s2 := h
    cases Option.some.inj h2
    intro e n
    show (n ∈ ((Function.update s.nodes_listening ev
        (Option.some (Insert.insert id ((s.nodes_listening ev).getD ∅))) e).getD
          ∅)) ↔
      ∃ el2, Function.update s.node_types id
        (Option.some (NodeType.Element
          { el with listeners := Insert.insert ev el.listeners })) n =
        Option.some (NodeType.Element el2) ∧ e ∈ el2.listeners
    by_cases hev : e = ev
    · subst hev
      rw [Function.update_same]
      by_cases hn : n = id
      · subst hn
        rw [Function.update_same]
        refine iff_of_true (Finset.mem_insert_self _ _) ?_
        exact ⟨_, rfl, Finset.mem_insert_self _ _⟩
      · rw [Function.update_noteq hn]
        rw [Option.getD_some, Finset.mem_insert]
        constructor
        · intro hmem
          rcases hmem with hmem | hmem
          · exact absurd hmem hn
          · exact (hcons e n).mp hmem
        · intro hr
          exact Or.inr ((hcons e n).mpr hr)
    · rw [Function.update_noteq hev]
      by_cases hn : n = id
      · subst hn
        rw [Function.update_same]
        have hbase := hcons e n
        rw [hnt] at hbase
        constructor
        · intro hmem
          obtain ⟨el0, hel0, he0⟩ := hbase.mp hmem
          simp only [Option.some.injEq, NodeType.Element.injEq] at hel0
          subst hel0
          exact ⟨_, rfl, Finset.mem_insert_of_mem he0⟩
        · rintro ⟨el2, hel2, he2⟩
          simp only [Option.some.injEq, NodeType.Element.injEq] at hel2
          subst hel2
          rcases Finset.mem_insert.mp he2 with hcase | hcase
          · exact absurd hcase hev
          · exact hbase.mpr ⟨el, rfl, hcase⟩
      · rw [Function.update_noteq hn]
        exact hcons e n
  · have h2 : Option.some s = Option.some s2 := h
    cases Option.some.inj h2
    exact hcons
  · have h2 : Option.some s = Option.some s2 := h
    cases Option.some.inj h2
    exact hcons

theorem remove_event_listener_cons (s : RealDom) (id : Nat) (ev : EventName)
    (s2 : RealDom)
    (h : NodeMut.remove_event_listener s id ev = Option.some s2)
    (hcons : listenersConsistent s) : listenersConsistent s2 := by
  unfold NodeMut.remove_event_listener at h
  rcases hnt : s.node_types id with _ | nt <;> rw [hnt] at h
  · simp at h
  rcases nt with el | txt | _
  · rcases hsl : s.nodes_listening ev with _ | hs
    · have h2 : (Option.none : Option RealDom) = Option.some s2 := by
        rw [← h]
        show _ = (match s.nodes_listening ev with
          | Option.none => Option.none
          | Option.some hs => Option.some { s with
              dirty_nodes :=
                s.dirty_nodes.mark_dirty id NodeMaskBuilder.withListeners
              node_types := Function.update s.node_types id
                (Option.some (NodeType.Element
                  { el with listeners := el.listeners.erase ev }))
              nodes_listening := Function.update s.nodes_listening ev
                (Option.some (hs.erase id)) })
        rw [hsl]
      simp at h2
    · have h2 : Option.some { s with
          dirty_nodes := s.dirty_nodes.mark_dirty id NodeMaskBuilder.withListeners
          node_types := Function.update s.node_types id
            (Option.some (NodeType.Element
              { el with listeners := el.listeners.erase ev }))
          nodes_listening := Function.update s.nodes_listening ev
            (Option.some (hs.erase id)) } = Option.some s2 := by
        rw [← h]
        show _ = (match s.nodes_listening ev with
          | Option.none => Option.none
          | Option.some hs => Option.some { s with
              dirty_nodes :=
                s.dirty_nodes.mark_dirty id NodeMaskBuilder.withListeners
              node_types := Function.update s.node_types id
                (Option.some (NodeType.Element
                  { el with listeners := el.listeners.erase ev }))
              nodes_listening := Function.update s.nodes_listening ev
                (Option.some (hs.erase id)) })
        rw [hsl]
      cases Option.some.inj h2
      intro e n
      show (n ∈ ((Function.update s.nodes_listening ev
          (Option.some (hs.erase id)) e).getD ∅)) ↔
        ∃ el2, Function.update s.node_types id
          (Option.some (NodeType.Element
            { el with listeners := el.listeners.erase ev })) n =
          Option.some (NodeType.Element el2) ∧ e ∈ el2.listeners
      by_cases hev : e = ev
      · subst hev
        rw [Function.update_same, Option.getD_some, Finset.mem_erase]
        by_cases hn : n = id
        · subst hn
          refine iff_of_false (fun hmem => hmem.1 rfl) ?_
          rw [Function.update_same]
          rintro ⟨el2, hel2, he2⟩
          simp only [Option.some.injEq, NodeType.Element.injEq] at hel2
          subst hel2
          exact (Finset.mem_erase.mp he2).1 rfl
        · rw [Function.update_noteq hn]
          have hbase := hcons e n
          rw [RealDom.get_listeners, hsl, Option.getD_some] at hbase
          constructor
          · intro hmem
            exact hbase.mp hmem.2
          · intro hr
            exact ⟨hn, hbase.mpr hr⟩
      · rw [Function.update_noteq hev]
        by_cases hn : n = id
        · subst hn
          rw [Function.update_same]
          have hbase := hcons e n
          rw [hnt] at hbase
          constructor
          · intro hmem
            obtain ⟨el0, hel0, he0⟩ := hbase.mp hmem
            simp only [Option.some.injEq, NodeType.Element.injEq] at hel0
            subst hel0
            exact ⟨_, rfl, Finset.mem_erase.mpr ⟨hev, he0⟩⟩
          · rintro ⟨el2, hel2, he2⟩
            simp only [Option.some.injEq, NodeType.Element.injEq] at hel2
            subst hel2
            exact hbase.mpr ⟨el, rfl, (Finset.mem_erase.mp he2).2⟩
        · rw [Function.update_noteq hn]
          exact hcons e n
  · have h2 : Option.some s = Option.some s2 := h
    cases Option.some.inj h2
    exact hcons
  · have h2 : Option.some s = Option.some s2 := h
    cases Option.some.inj h2
    exact hcons

/-- A dom whose root registered a click listener. -/
def c8s1 : RealDom :=
  (NodeMut.add_event_listener (RealDom.new []) 0 ("click")).getD (RealDom.new [])

/-- The same dom after `set_type` replaced the root's payload with text. -/
def c8s2 : RealDom :=
  (NodeMut.set_type c8s1 0 (NodeType.Text ("x"))).getD (RealDom.new [])
/-- Counterexample to the universally quantified form of claim C8: after a
listener is registered on the root, `set_type` swaps the root's payload to
text without purging the reverse index, so the root stays in
`get_listeners("click")` while no element node carries the listener. -/
theorem C8_set_type_breaks_listener_index :
    NodeMut.add_event_listener (RealDom.new []) 0 ("click") =
      Option.some c8s1 ∧
    NodeMut.set_type c8s1 0 (NodeType.Text ("x")) = Option.some c8s2 ∧
    (0 : Nat) ∈ c8s2.get_listeners ("click") ∧
    c8s2.node_types 0 = Option.some (NodeType.Text ("x")) ∧
    ¬ listenersConsistent c8s2 := by
  refine ⟨rfl, rfl, by decide, by decide, ?_⟩
  intro h
  obtain ⟨el, hel, _⟩ := (h ("click") 0).mp (by decide)
  rw [show c8s2.node_types 0 = Option.some (NodeType.Text ("x")) from by decide]
    at hel
  simp at hel

theorem domTree_fold_noop (fl : Nat) :
    ∀ (l : List Nat) (t r : DomTree),
      (∀ c ∈ l, t.nodes c = Option.none) →
      l.foldlM (fun acc c => DomTree.removeAux fl acc c) t = Option.some r →
      r = t
  | [], t, r, _, h => by
    rw [List.foldlM_nil] at h
    exact (Option.some.inj h).symm
  | c :: l2, t, r, hall, h => by
    rw [List.foldlM_cons] at h
    rcases fl with _ | fl2
    · simp [DomTree.removeAux] at h
    · have hstep : DomTree.removeAux (fl2 + 1) t c = Option.some t := by
        unfold DomTree.removeAux
        rw [hall c (List.mem_cons_self c l2)]
      rw [hstep] at h
      exact domTree_fold_noop (fl2 + 1) l2 t r
        (fun c2 hc2 => hall c2 (List.mem_cons_of_mem c hc2)) h


theorem detach_nodes_none (t : DomTree) (id c : Nat)
    (hc : t.nodes c = Option.none) : (t.detach id).nodes c = Option.none := by
  unfold DomTree.detach
  rcases hid : t.nodes id with _ | nd
  · exact hc
  · show ((match nd.parent with
      | Option.none => t
      | Option.some p =>
        (⟨Function.update
          (Function.update t.nodes p
            ((t.nodes p).map fun pn : TreeNode =>
              { pn with children := pn.children.filter (fun x => x ≠ id) })) id
          (Option.some { nd with parent := Option.none })⟩ : DomTree) :
        DomTree)).nodes c =
      Option.none
    rcases hpar : nd.parent with _ | p
    · exact hc
    · have hcid : c ≠ id := by
        intro he
        rw [he] at hc
        rw [hc] at hid
        exact Option.noConfusion hid
      show (Function.update (Function.update t.nodes p
          ((t.nodes p).map fun pn =>
            { pn with children := pn.children.filter (fun x => x ≠ id) })) id
          (Option.some { nd with parent := Option.none }) c) = Option.none
      rw [Function.update_noteq hcid]
      by_cases hcp : c = p
      · subst hcp
        rw [Function.update_same, hc]
        rfl
      · rw [Function.update_noteq hcp]
        exact hc

theorem domTree_removeAux_final (fl : Nat) (t : DomTree) (id : Nat)
    (t2 : DomTree) (h : DomTree.removeAux fl t id = Option.some t2)
    (hch : ∀ nd, t.nodes id = Option.some nd →
      ∀ c ∈ nd.children, t.nodes c = Option.none) :
    t2.nodes id = Option.none ∧
    ∀ d, d ≠ id → t2.nodes d = t.nodes d ∨
      ∃ tn, t.nodes d = Option.some tn ∧
        t2.nodes d =
          Option.some { tn with
            children := tn.children.filter (fun c => c ≠ id) } := by
  rcases fl with _ | fl2
  · simp [DomTree.removeAux] at h
  unfold DomTree.removeAux at h
  rcases hid : t.nodes id with _ | nd <;> rw [hid] at h
  · cases Option.some.inj h
    exact ⟨hid, fun d _ => Or.inl rfl⟩
  · have h2 : ((nd.children.foldlM (fun acc c => DomTree.removeAux fl2 acc c)
        (t.detach id)).map
          (fun t1 => (⟨Function.update t1.nodes id Option.none⟩ : DomTree))) =
        Option.some t2 := h
    rcases hf : nd.children.foldlM (fun acc c => DomTree.removeAux fl2 acc c)
        (t.detach id) with _ | t1 <;> rw [hf] at h2
    · simp at h2
    have ht1 : t1 = t.detach id :=
      domTree_fold_noop fl2 nd.children (t.detach id) t1
        (fun c hc => detach_nodes_none t id c (hch nd hid c hc)) hf
    subst ht1
    have ht2 : t2 = ⟨Function.update (t.detach id).nodes id Option.none⟩ :=
      (Option.some.inj h2).symm
    subst ht2
    refine ⟨Function.update_same _ _ _, ?_⟩
    intro d hd
    have hbase : (⟨Function.update (t.detach id).nodes id Option.none⟩ :
        DomTree).nodes d = (t.detach id).nodes d := Function.update_noteq hd _ _
    rw [hbase]
    rcases hpar : nd.parent with _ | p
    · have hdet : t.detach id = t := by
        unfold DomTree.detach
        rw [hid]
        show ((match nd.parent with
          | Option.none => t
          | Option.some p =>
            (⟨Function.update
              (Function.update t.nodes p
                ((t.nodes p).map fun pn : TreeNode =>
                  { pn with
                    children := pn.children.filter (fun x => x ≠ id) })) id
              (Option.some { nd with parent := Option.none })⟩ : DomTree) :
            DomTree)) = t
        rw [hpar]
      rw [hdet]
      exact Or.inl rfl
    · have hdet : t.detach id =
          ⟨Function.update (Function.update t.nodes p
            ((t.nodes p).map fun pn : TreeNode =>
              { pn with children := pn.children.filter (fun x => x ≠ id) })) id
            (Option.some { nd with parent := Option.none })⟩ := by
        unfold DomTree.detach
        rw [hid]
        show ((match nd.parent with
          | Option.none => t
          | Option.some p2 =>
            (⟨Function.update
              (Function.update t.nodes p2
                ((t.nodes p2).map fun pn : TreeNode =>
                  { pn with
                    children := pn.children.filter (fun x => x ≠ id) })) id
              (Option.some { nd with parent := Option.none })⟩ : DomTree) :
            DomTree)) = _
        rw [hpar]
      rw [hdet]
      show (Function.update (Function.update t.nodes p
          ((t.nodes p).map fun pn : TreeNode =>
            { pn with children := pn.children.filter (fun x => x ≠ id) })) id
          (Option.some { nd with parent := Option.none }) d = t.nodes d) ∨
        ∃ tn, t.nodes d = Option.some tn ∧
          Function.update (Function.update t.nodes p
            ((t.nodes p).map fun pn : TreeNode =>
              { pn with children := pn.children.filter (fun x => x ≠ id) })) id
            (Option.some { nd with parent := Option.none }) d =
            Option.some { tn with
              children := tn.children.filter (fun c => c ≠ id) }
      rw [Function.update_noteq hd]
      by_cases hdp : d = p
      · subst hdp
        rw [Function.update_same]
        rcases hp : t.nodes d with _ | tnp
        · exact Or.inl rfl
        · exact Or.inr ⟨tnp, rfl, rfl⟩
      · rw [Function.update_noteq hdp]
        exact Or.inl rfl

theorem cons_congr (a b : RealDom) (hp : b.node_types = a.node_types)
    (hn : b.nodes_listening = a.nodes_listening)
    (h : listenersConsistent a) : listenersConsistent b := by
  intro e d
  unfold RealDom.get_listeners
  rw [hp, hn]
  exact h e d

theorem purge_index (s : RealDom) (n : Nat) (el : ElementNode) :
    ∀ (e : EventName) (d : Nat),
      d ∈ ({ s with
        node_types := Function.update s.node_types n
          (Option.some (NodeType.Element { el with listeners := ∅ }))
        nodes_listening := fun e2 =>
          if e2 ∈ el.listeners then
            (s.nodes_listening e2).map (fun hs => hs.erase n)
          else s.nodes_listening e2 } : RealDom).get_listeners e →
      d ∈ s.get_listeners e := by
  intro e d hmem
  have hmem2 : d ∈ ((if e ∈ el.listeners then
      (s.nodes_listening e).map (fun hs => hs.erase n)
    else s.nodes_listening e).getD ∅) := hmem
  by_cases he : e ∈ el.listeners
  · rw [if_pos he] at hmem2
    exact ((mem_map_erase_getD _ d n).mp hmem2).1
  · rw [if_neg he] at hmem2
    exact hmem2

theorem purge_cons (s : RealDom) (n : Nat) (el : ElementNode)
    (hnt : s.node_types n = Option.some (NodeType.Element el))
    (hcons : listenersConsistent s) :
    listenersConsistent ({ s with
      node_types := Function.update s.node_types n
        (Option.some (NodeType.Element { el with listeners := ∅ }))
      nodes_listening := fun e2 =>
        if e2 ∈ el.listeners then
          (s.nodes_listening e2).map (fun hs => hs.erase n)
        else s.nodes_listening e2 } : RealDom) := by
  intro e d
  unfold RealDom.get_listeners
  show (d ∈ ((if e ∈ el.listeners then
      (s.nodes_listening e).map (fun hs => hs.erase n)
    else s.nodes_listening e).getD ∅)) ↔
    ∃ el2, Function.update s.node_types n
      (Option.some (NodeType.Element { el with listeners := ∅ })) d =
      Option.some (NodeType.Element el2) ∧ e ∈ el2.listeners
  by_cases hdn : d = n
  · subst hdn
    refine iff_of_false ?_ ?_
    · intro hmem
      by_cases he : e ∈ el.listeners
      · rw [if_pos he] at hmem
        exact ((mem_map_erase_getD _ d d).mp hmem).2 rfl
      · rw [if_neg he] at hmem
        obtain ⟨el0, hel0, he0⟩ := (hcons e d).mp hmem
        rw [hnt] at hel0
        simp only [Option.some.injEq, NodeType.Element.injEq] at hel0
        subst hel0
        exact he he0
    · rintro ⟨el2, hel2, he2⟩
      rw [Function.update_same] at hel2
      simp only [Option.some.injEq, NodeType.Element.injEq] at hel2
      subst hel2
      exact Finset.not_mem_empty e he2
  · have hlhs : (d ∈ ((if e ∈ el.listeners then
        (s.nodes_listening e).map (fun hs => hs.erase n)
      else s.nodes_listening e).getD ∅)) ↔ d ∈ s.get_listeners e := by
      by_cases he : e ∈ el.listeners
      · rw [if_pos he, mem_map_erase_getD]
        exact ⟨fun hx => hx.1, fun hx => ⟨hx, hdn⟩⟩
      · rw [if_neg he]
        exact Iff.rfl
    rw [hlhs, Function.update_noteq hdn]
    exact hcons e d

theorem removeFold_spec (fuel : Nat)
    (IH : ∀ (a : RealDom) (m : Nat) (a2 : RealDom),
      RealDom.removeAux fuel a m = Option.some a2 →
      RemInv a a2 ∧ PayloadSameOrNone a a2 ∧
      a2.node_types m = Option.none ∧ a2.tree.nodes m = Option.none ∧
      (listenersConsistent a → listenersConsistent a2)) :
    ∀ (l : List Nat) (acc s3 : RealDom),
      l.foldlM (fun a c =>
        if a.tree.contains c = true then RealDom.removeAux fuel a c
        else Option.none) acc = Option.some s3 →
      RemInv acc s3 ∧ PayloadSameOrNone acc s3 ∧
      (∀ c ∈ l, s3.tree.nodes c = Option.none ∧
        s3.node_types c = Option.none) ∧
      (listenersConsistent acc → listenersConsistent s3)
  | [], acc, s3, h => by
    rw [List.foldlM_nil] at h
    cases Option.some.inj h
    exact ⟨remInv_refl acc, fun d => Or.inl rfl,
      fun c hc => absurd hc (List.not_mem_nil c), fun hc => hc⟩
  | c :: l2, acc, s3, h => by
    rw [List.foldlM_cons] at h
    by_cases hcont : acc.tree.contains c = true
    case neg =>
      rw [if_neg hcont] at h
      simp at h
    rw [if_pos hcont] at h
    rcases hstep : RealDom.removeAux fuel acc c with _ | acc1 <;>
      rw [hstep] at h
    · simp at h
    obtain ⟨inv1, psn1, hpc, htc, hcons1⟩ := IH acc c acc1 hstep
    obtain ⟨inv2, psn2, hrest, hcons2⟩ := removeFold_spec fuel IH l2 acc1 s3 h
    refine ⟨remInv_trans inv1 inv2, psn_trans psn1 psn2, ?_,
      fun hc => hcons2 (hcons1 hc)⟩
    intro c0 hc0
    rcases List.mem_cons.mp hc0 with rfl | hc0b
    · exact ⟨shrink_tree_none inv2 c0 htc, shrink_payload_none inv2 c0 hpc⟩
    · exact hrest c0 hc0b

theorem removeTail_spec (fuel : Nat) (n : Nat) (s s1 sF : RealDom)
    (IH : ∀ (a : RealDom) (m : Nat) (a2 : RealDom),
      RealDom.removeAux fuel a m = Option.some a2 →
      RemInv a a2 ∧ PayloadSameOrNone a a2 ∧
      a2.node_types m = Option.none ∧ a2.tree.nodes m = Option.none ∧
      (listenersConsistent a → listenersConsistent a2))
    (h : (match (s1.tree.children_ids n).foldlM
        (fun acc c =>
          if acc.tree.contains c = true then RealDom.removeAux fuel acc c
          else Option.none)
        (match s1.tree.parent_id n with
         | Option.some parent_id =>
           { s1 with
             dirty_nodes := s1.dirty_nodes.mark_child_changed parent_id }
         | Option.none => s1) with
      | Option.none => (Option.none : Option RealDom)
      | Option.some s3 =>
        (DomTree.removeAux (fuel + 1) s3.tree n).map fun t =>
          { s3 with
            tree := t
            node_types := Function.update s3.node_types n Option.none
            components := fun ty m =>
              if m = n then false else s3.components ty m }) = Option.some sF)
    (htree : s1.tree = s.tree)
    (hpay : ∀ d, d ≠ n → s1.node_types d = s.node_types d)
    (hsnt : (s.node_types n).isSome = true)
    (hidx : ∀ (e : EventName) (d : Nat),
      d ∈ s1.get_listeners e → d ∈ s.get_listeners e)
    (hcons1 : listenersConsistent s → listenersConsistent s1)
    (hquiet : ∀ el2, s1.node_types n = Option.some (NodeType.Element el2) →
      el2.listeners = ∅) :
    RemInv s sF ∧ PayloadSameOrNone s sF ∧
    sF.node_types n = Option.none ∧ sF.tree.nodes n = Option.none ∧
    (listenersConsistent s → listenersConsistent sF) := by
  rcases hfold : (s1.tree.children_ids n).foldlM
      (fun acc c =>
        if acc.tree.contains c = true then RealDom.removeAux fuel acc c
        else Option.none)
      (match s1.tree.parent_id n with
       | Option.some parent_id =>
         { s1 with
           dirty_nodes := s1.dirty_nodes.mark_child_changed parent_id }
       | Option.none => s1) with _ | s3 <;> rw [hfold] at h
  · have h2 : (Option.none : Option RealDom) = Option.some sF := h
    exact Option.noConfusion h2
  have h2 : ((DomTree.removeAux (fuel + 1) s3.tree n).map fun t =>
      { s3 with
        tree := t
        node_types := Function.update s3.node_types n Option.none
        components := fun ty m =>
          if m = n then false else s3.components ty m }) = Option.some sF := h
  rcases hrm : DomTree.removeAux (fuel + 1) s3.tree n with _ | t2 <;>
    rw [hrm] at h2
  · simp at h2
  have h3 : Option.some ({ s3 with
      tree := t2
      node_types := Function.update s3.node_types n Option.none
      components := fun ty m =>
        if m = n then false else s3.components ty m } : RealDom) =
      Option.some sF := h2
  cases Option.some.inj h3
  -- projections of the fold's initial state
  have hS2tree : (match s1.tree.parent_id n with
      | Option.some parent_id =>
        { s1 with
          dirty_nodes := s1.dirty_nodes.mark_child_changed parent_id }
      | Option.none => s1).tree = s1.tree := by
    rcases s1.tree.parent_id n with _ | p <;> rfl
  have hS2pay : (match s1.tree.parent_id n with
      | Option.some parent_id =>
        { s1 with
          dirty_nodes := s1.dirty_nodes.mark_child_changed parent_id }
      | Option.none => s1).node_types = s1.node_types := by
    rcases s1.tree.parent_id n with _ | p <;> rfl
  have hS2nl : (match s1.tree.parent_id n with
      | Option.some parent_id =>
        { s1 with
          dirty_nodes := s1.dirty_nodes.mark_child_changed parent_id }
      | Option.none => s1).nodes_listening = s1.nodes_listening := by
    rcases s1.tree.parent_id n with _ | p <;> rfl
  obtain ⟨invF, psnF, hkids, hconsF⟩ := removeFold_spec fuel IH
    (s1.tree.children_ids n) _ s3 hfold
  have inv_s_s1 : RemInv s s1 := by
    refine remInv_of_fields s s1 htree ?_ hidx
    intro d hd
    by_cases hdn : d = n
    · subst hdn
      exact hsnt
    · rw [hpay d hdn] at hd
      exact hd
  have inv_s1_S2 : RemInv s1 (match s1.tree.parent_id n with
      | Option.some parent_id =>
        { s1 with
          dirty_nodes := s1.dirty_nodes.mark_child_changed parent_id }
      | Option.none => s1) := by
    refine remInv_of_fields _ _ hS2tree ?_ ?_
    · intro d hd
      rw [hS2pay] at hd
      exact hd
    · intro e d hd
      unfold RealDom.get_listeners at hd
      rw [hS2nl] at hd
      exact hd
  have inv_s_s3 : RemInv s s3 :=
    remInv_trans (remInv_trans inv_s_s1 inv_s1_S2) invF
  -- every child of the removed node's surviving entry is fully deleted
  have hkill : ∀ nd, s3.tree.nodes n = Option.some nd →
      ∀ c ∈ nd.children, s3.tree.nodes c = Option.none ∧
        s3.node_types c = Option.none := by
    intro nd hnd c hc
    obtain ⟨tnS2, hS2e, sub, _⟩ := invF.2.1 n nd hnd
    have hs1e : s1.tree.nodes n = Option.some tnS2 := by
      rw [← hS2tree]
      exact hS2e
    have hcid : c ∈ s1.tree.children_ids n := by
      unfold DomTree.children_ids
      rw [hs1e]
      exact sub c hc
    exact hkids c hcid
  obtain ⟨hfin1, hfin2⟩ := domTree_removeAux_final (fuel + 1) s3.tree n t2 hrm
    (fun nd hnd c hc => (hkill nd hnd c hc).1)
  have invLast : RemInv s3 { s3 with
      tree := t2
      node_types := Function.update s3.node_types n Option.none
      components := fun ty m =>
        if m = n then false else s3.components ty m } := by
    refine ⟨⟨?_, ?_, ?_⟩, ?_, ?_⟩
    · intro d hd
      have hd2 : (t2.nodes d).isSome = true := hd
      by_cases hdn : d = n
      · subst hdn
        rw [hfin1] at hd2
        simp at hd2
      · rcases hfin2 d hdn with heq | ⟨tn, hse, h2e⟩
        · rw [heq] at hd2
          exact hd2
        · rw [hse]
          rfl
    · intro d hd
      have hd2 : ((Function.update s3.node_types n Option.none) d).isSome =
          true := hd
      by_cases hdn : d = n
      · subst hdn
        rw [Function.update_same] at hd2
        simp at hd2
      · rw [Function.update_noteq hdn] at hd2
        exact hd2
    · intro e d hd
      exact hd
    · intro d tn2 hentry
      have hentry2 : t2.nodes d = Option.some tn2 := hentry
      have hdn : d ≠ n := by
        intro he
        rw [he, hfin1] at hentry2
        exact Option.noConfusion hentry2
      rcases hfin2 d hdn with heq | ⟨tn, hse, h2e⟩
      · rw [heq] at hentry2
        exact ⟨tn2, hentry2, fun c hc => hc, fun c hc => Or.inl hc⟩
      · rw [h2e] at hentry2
        cases Option.some.inj hentry2
        refine ⟨tn, hse, ?_, ?_⟩
        · intro c hc
          exact (List.mem_filter.mp hc).1
        · intro c hc
          by_cases hcn : c = n
          · refine Or.inr ⟨?_, ?_⟩
            · show t2.nodes c = Option.none
              rw [hcn]
              exact hfin1
            · show Function.update s3.node_types n Option.none c = Option.none
              rw [hcn, Function.update_same]
          · exact Or.inl (List.mem_filter.mpr ⟨hc, decide_eq_true hcn⟩)
    · intro d tn hs3e hdel
      have hdel2 : t2.nodes d = Option.none := hdel
      by_cases hdn : d = n
      · subst hdn
        intro c hc
        obtain ⟨hc1, hc2⟩ := hkill tn hs3e c hc
        have hcn : c ≠ d := by
          intro he
          rw [he, hs3e] at hc1
          exact Option.noConfusion hc1
        refine ⟨?_, ?_⟩
        · show t2.nodes c = Option.none
          rcases hfin2 c hcn with heq | ⟨tnc, hsec, h2ec⟩
          · rw [heq]
            exact hc1
          · rw [hsec] at hc1
            exact Option.noConfusion hc1
        · show Function.update s3.node_types d Option.none c = Option.none
          rw [Function.update_noteq hcn]
          exact hc2
      · rcases hfin2 d hdn with heq | ⟨tn2, hse, h2e⟩
        · rw [heq, hs3e] at hdel2
          exact Option.noConfusion hdel2
        · rw [h2e] at hdel2
          exact Option.noConfusion hdel2
  refine ⟨remInv_trans inv_s_s3 invLast, ?_, ?_, ?_, ?_⟩
  · intro d
    by_cases hdn : d = n
    · subst hdn
      exact Or.inr (Function.update_same _ _ _)
    · have hupd : ({ s3 with
          tree := t2
          node_types := Function.update s3.node_types n Option.none
          components := fun ty m =>
            if m = n then false else s3.components ty m } :
            RealDom).node_types d = s3.node_types d :=
        Function.update_noteq hdn _ _
      rw [hupd]
      rcases psnF d with heq | hnone
      · rw [heq, hS2pay, hpay d hdn]
        exact Or.inl rfl
      · exact Or.inr hnone
  · exact Function.update_same _ _ _
  · exact hfin1
  · intro hcS
    have hc1 := hcons1 hcS
    have hcS2 := cons_congr s1 _ hS2pay hS2nl hc1
    have hc3 := hconsF hcS2
    have hnq : ∀ e, n ∉ s3.get_listeners e := by
      intro e hmem
      obtain ⟨el2, hel2, he2⟩ := (hc3 e n).mp hmem
      rcases psnF n with heq | hnone
      · rw [heq, hS2pay] at hel2
        rw [hquiet el2 hel2] at he2
        exact Finset.not_mem_empty e he2
      · rw [hnone] at hel2
        exact Option.noConfusion hel2
    intro e d
    show (d ∈ ((s3.nodes_listening e).getD ∅)) ↔
      ∃ el2, Function.update s3.node_types n Option.none d =
        Option.some (NodeType.Element el2) ∧ e ∈ el2.listeners
    by_cases hdn : d = n
    · subst hdn
      refine iff_of_false (fun hmem => hnq e hmem) ?_
      rintro ⟨el2, hel2, _⟩
      rw [Function.update_same] at hel2
      exact Option.noConfusion hel2
    · rw [Function.update_noteq hdn]
      exact hc3 e d

theorem removeAux_spec :
    ∀ (fuel : Nat) (s : RealDom) (n : Nat) (s2 : RealDom),
      RealDom.removeAux fuel s n = Option.some s2 →
      RemInv s s2 ∧ PayloadSameOrNone s s2 ∧
      s2.node_types n = Option.none ∧ s2.tree.nodes n = Option.none ∧
      (listenersConsistent s → listenersConsistent s2)
  | 0, s, n, s2, h => by simp [RealDom.removeAux] at h
  | fuel + 1, s, n, sF, h => by
    rcases hnt : s.node_types n with _ | nt
    · unfold RealDom.removeAux at h
      rw [hnt] at h
      simp at h
    unfold RealDom.removeAux at h
    rw [hnt] at h
    rcases nt with el | tx | _
    · have h2 : (match (if (∀ e ∈ el.listeners,
            (s.nodes_listening e).isSome = true) then
          Option.some ({ s with
            node_types := Function.update s.node_types n
              (Option.some (NodeType.Element { el with listeners := ∅ }))
            nodes_listening := fun e2 =>
              if e2 ∈ el.listeners then
                (s.nodes_listening e2).map (fun hs => hs.erase n)
              else s.nodes_listening e2 } : RealDom)
        else Option.none) with
        | Option.none => (Option.none : Option RealDom)
        | Option.some s1 =>
          match (s1.tree.children_ids n).foldlM
              (fun acc c =>
                if acc.tree.contains c = true then
                  RealDom.removeAux fuel acc c
                else Option.none)
              (match s1.tree.parent_id n with
               | Option.some parent_id =>
                 { s1 with
                   dirty_nodes := s1.dirty_nodes.mark_child_changed parent_id }
               | Option.none => s1) with
          | Option.none => (Option.none : Option RealDom)
          | Option.some s3 =>
            (DomTree.removeAux (fuel + 1) s3.tree n).map fun t =>
              { s3 with
                tree := t
                node_types := Function.update s3.node_types n Option.none
                components := fun ty m =>
                  if m = n then false else s3.components ty m }) =
          Option.some sF := h
      by_cases hP : ∀ e ∈ el.listeners, (s.nodes_listening e).isSome = true
      case neg =>
        rw [if_neg hP] at h2
        have h3 : (Option.none : Option RealDom) = Option.some sF := h2
        exact Option.noConfusion h3
      rw [if_pos hP] at h2
      have h3 : (match (({ s with
          node_types := Function.update s.node_types n
            (Option.some (NodeType.Element { el with listeners := ∅ }))
          nodes_listening := fun e2 =>
            if e2 ∈ el.listeners then
              (s.nodes_listening e2).map (fun hs => hs.erase n)
            else s.nodes_listening e2 } :
            RealDom).tree.children_ids n).foldlM
            (fun acc c =>
              if acc.tree.contains c = true then
                RealDom.removeAux fuel acc c
              else Option.none)
            (match ({ s with
              node_types := Function.update s.node_types n
                (Option.some (NodeType.Element { el with listeners := ∅ }))
              nodes_listening := fun e2 =>
                if e2 ∈ el.listeners then
                  (s.nodes_listening e2).map (fun hs => hs.erase n)
                else s.nodes_listening e2 } :
                RealDom).tree.parent_id n with
             | Option.some parent_id =>
               { ({ s with
                 node_types := Function.update s.node_types n
                   (Option.some (NodeType.Element { el with listeners := ∅ }))
                 nodes_listening := fun e2 =>
                   if e2 ∈ el.listeners then
                     (s.nodes_listening e2).map (fun hs => hs.erase n)
                   else s.nodes_listening e2 } : RealDom) with
                 dirty_nodes := ({ s with
                   node_types := Function.update s.node_types n
                     (Option.some (NodeType.Element
                       { el with listeners := ∅ }))
                   nodes_listening := fun e2 =>
                     if e2 ∈ el.listeners then
                       (s.nodes_listening e2).map (fun hs => hs.erase n)
                     else s.nodes_listening e2 } :
                     RealDom).dirty_nodes.mark_child_changed parent_id }
             | Option.none =>
               ({ s with
                 node_types := Function.update s.node_types n
                   (Option.some (NodeType.Element { el with listeners := ∅ }))
                 nodes_listening := fun e2 =>
                   if e2 ∈ el.listeners then
                     (s.nodes_listening e2).map (fun hs => hs.erase n)
                   else s.nodes_listening e2 } : RealDom)) with
        | Option.none => (Option.none : Option RealDom)
        | Option.some s3 =>
          (DomTree.removeAux (fuel + 1) s3.tree n).map fun t =>
            { s3 with
              tree := t
              node_types := Function.update s3.node_types n Option.none
              components := fun ty m =>
                if m = n then false else s3.components ty m }) =
          Option.some sF := h2
      refine removeTail_spec fuel n s _ sF
        (fun a m a2 ha => removeAux_spec fuel a m a2 ha) h3 rfl
        (fun d hd => Function.update_noteq hd _ _) (by rw [hnt]; rfl)
        (purge_index s n el) (purge_cons s n el hnt) ?_
      intro el2 hq
      have hq2 : Function.update s.node_types n
          (Option.some (NodeType.Element { el with listeners := ∅ })) n =
          Option.some (NodeType.Element el2) := hq
      rw [Function.update_same] at hq2
      simp only [Option.some.injEq, NodeType.Element.injEq] at hq2
      rw [← hq2]
    · have h2 : (match (s.tree.children_ids n).foldlM
            (fun acc c =>
              if acc.tree.contains c = true then
                RealDom.removeAux fuel acc c
              else Option.none)
            (match s.tree.parent_id n with
             | Option.some parent_id =>
               { s with
                 dirty_nodes := s.dirty_nodes.mark_child_changed parent_id }
             | Option.none => s) with
        | Option.none => (Option.none : Option RealDom)
        | Option.some s3 =>
          (DomTree.removeAux (fuel + 1) s3.tree n).map fun t =>
            { s3 with
              tree := t
              node_types := Function.update s3.node_types n Option.none
              components := fun ty m =>
                if m = n then false else s3.components ty m }) =
          Option.some sF := h
      refine removeTail_spec fuel n s s sF
        (fun a m a2 ha => removeAux_spec fuel a m a2 ha) h2 rfl
        (fun d _ => rfl) (by rw [hnt]; rfl) (fun e d hd => hd)
        (fun hc => hc) ?_
      intro el2 hq
      rw [hnt] at hq
      exact absurd (Option.some.inj hq) (by simp)
    · have h2 : (match (s.tree.children_ids n).foldlM
            (fun acc c =>
              if acc.tree.contains c = true then
                RealDom.removeAux fuel acc c
              else Option.none)
            (match s.tree.parent_id n with
             | Option.some parent_id =>
               { s with
                 dirty_nodes := s.dirty_nodes.mark_child_changed parent_id }
             | Option.none => s) with
        | Option.none => (Option.none : Option RealDom)
        | Option.some s3 =>
          (DomTree.removeAux (fuel + 1) s3.tree n).map fun t =>
            { s3 with
              tree := t
              node_types := Function.update s3.node_types n Option.none
              components := fun ty m =>
                if m = n then false else s3.components ty m }) =
          Option.some sF := h
      refine removeTail_spec fuel n s s sF
        (fun a m a2 ha => removeAux_spec fuel a m a2 ha) h2 rfl
        (fun d _ => rfl) (by rw [hnt]; rfl) (fun e d hd => hd)
        (fun hc => hc) ?_
      intro el2 hq
      rw [hnt] at hq
      exact absurd (Option.some.inj hq) (by simp)

theorem deletedClosed_subtree (s s2 : RealDom) (hdc : DeletedClosed s s2) :
    ∀ (F : Nat) (r : Nat), s2.tree.nodes r = Option.none →
      s2.node_types r = Option.none →
      ∀ d ∈ DomTree.subtreeIds F s.tree r,
        s2.tree.nodes d = Option.none ∧ s2.node_types d = Option.none
  | 0, r, _, _, d, hd => by simp [DomTree.subtreeIds] at hd
  | F + 1, r, hr1, hr2, d, hd => by
    unfold DomTree.subtreeIds at hd
    rcases List.mem_cons.mp hd with rfl | hd2
    · exact ⟨hr1, hr2⟩
    · rw [List.mem_flatMap] at hd2
      rcases hd2 with ⟨c, hc, hdc2⟩
      rcases hre : s.tree.nodes r with _ | tn
      · unfold DomTree.children_ids at hc
        rw [hre] at hc
        simp at hc
      · unfold DomTree.children_ids at hc
        rw [hre] at hc
        simp only [Option.map_some', Option.getD_some] at hc
        obtain ⟨hc1, hc2⟩ := hdc r tn hre hr1 c hc
        exact deletedClosed_subtree s s2 hdc F c hc1 hc2 d hdc2

/-- Claim C8 (corrected): the reverse listener index is not kept consistent
under every operation (`set_type` replaces an element payload without purging
the index, see the accompanying counterexample), but it is kept consistent by
`add_event_listener`, by `remove_event_listener` and by `remove`; and a
successful `remove` deletes the node and every node of its subtree from the
dom and from every reverse-index entry. -/
theorem C8_listener_index_corrected (s : RealDom)
    (hc : listenersConsistent s) :
    (∀ (id : Nat) (e : EventName) (s2 : RealDom),
      NodeMut.add_event_listener s id e = Option.some s2 →
      listenersConsistent s2) ∧
    (∀ (id : Nat) (e : EventName) (s2 : RealDom),
      NodeMut.remove_event_listener s id e = Option.some s2 →
      listenersConsistent s2) ∧
    (∀ (fuel n : Nat) (s2 : RealDom),
      RealDom.removeAux fuel s n = Option.some s2 →
      listenersConsistent s2 ∧
      s2.contains n = false ∧ s2.node_types n = Option.none ∧
      (∀ e, n ∉ s2.get_listeners e) ∧
      (∀ F d, d ∈ DomTree.subtreeIds F s.tree n →
        s2.contains d = false ∧ s2.node_types d = Option.none ∧
        ∀ e, d ∉ s2.get_listeners e)) := by
  refine ⟨fun id e s2 h => add_event_listener_cons s id e s2 h hc,
    fun id e s2 h => remove_event_listener_cons s id e s2 h hc, ?_⟩
  intro fuel n s2 h
  obtain ⟨inv, psn, hpn, htn, hconsP⟩ := removeAux_spec fuel s n s2 h
  have hc2 := hconsP hc
  have hnolisten : ∀ d, s2.node_types d = Option.none →
      ∀ e, d ∉ s2.get_listeners e := by
    intro d hd e hmem
    obtain ⟨el2, hel2, _⟩ := (hc2 e d).mp hmem
    rw [hd] at hel2
    exact Option.noConfusion hel2
  have hkill := deletedClosed_subtree s s2 inv.2.2
  refine ⟨hc2, ?_, hpn, hnolisten n hpn, ?_⟩
  · show (s2.tree.nodes n).isSome = false
    rw [htn]
    rfl
  · intro F d hd
    obtain ⟨hd1, hd2⟩ := hkill F n htn hpn d hd
    refine ⟨?_, hd2, hnolisten d hd2⟩
    show (s2.tree.nodes d).isSome = false
    rw [hd1]
    rfl

theorem cons_new_nil : listenersConsistent (RealDom.new []) := by
  intro e n
  refine iff_of_false ?_ ?_
  · intro h
    have h2 : n ∈ ((Option.none : Option (Finset Nat)).getD ∅) := h
    simp at h2
  · rintro ⟨el, hel, hee⟩
    have hel2 : Function.update (fun _ => Option.none) 0
        (Option.some (NodeType.Element ⟨("Root"), [], ∅⟩)) n =
        Option.some (NodeType.Element el) := hel
    by_cases h0 : n = 0
    · subst h0
      rw [Function.update_same] at hel2
      simp only [Option.some.injEq, NodeType.Element.injEq] at hel2
      rw [← hel2] at hee
      exact Finset.not_mem_empty e hee
    · rw [Function.update_noteq h0] at hel2
      exact Option.noConfusion hel2

theorem C8_listener_index_corrected_witness :
    listenersConsistent (RealDom.new []) ∧
    ((∀ (id : Nat) (e : EventName) (s2 : RealDom),
        NodeMut.add_event_listener (RealDom.new []) id e = Option.some s2 →
        listenersConsistent s2) ∧
     (∀ (id : Nat) (e : EventName) (s2 : RealDom),
        NodeMut.remove_event_listener (RealDom.new []) id e = Option.some s2 →
        listenersConsistent s2) ∧
     (∀ (fuel n : Nat) (s2 : RealDom),
        RealDom.removeAux fuel (RealDom.new []) n = Option.some s2 →
        listenersConsistent s2 ∧
        s2.contains n = false ∧ s2.node_types n = Option.none ∧
        (∀ e, n ∉ s2.get_listeners e) ∧
        (∀ F d, d ∈ DomTree.subtreeIds F (RealDom.new []).tree n →
          s2.contains d = false ∧ s2.node_types d = Option.none ∧
          ∀ e, d ∉ s2.get_listeners e))) :=
  ⟨cons_new_nil, C8_listener_index_corrected (RealDom.new []) cons_new_nil⟩
